import Mathlib

/-!
Verification of `minitorch/autodiff.py`: the topological sort, the
backpropagation driver, the `Context` scratch record and the
`central_difference` estimator.

The concrete `Variable` implementation (a scalar or tensor class) is external
to this file's source; following the specification's data model it is embedded
as a tree: each node carries its process-unique id, its constant flag, an
optional `History` (flattened into a `hasHist` flag, an operation-recorded
flag `lastFn`, the ordered inputs and, for the chain rule, one local
derivative per input).  Sharing in the computation DAG is represented by
repeated subtrees bearing the same `uid`; the well-formedness predicate
`UniqueIds` (same id implies same node) captures the spec's invariant that no
two live Variables share an id.
-/

set_option maxHeartbeats 1000000

namespace Autodiff

/-- Modelled from the spec: a `Variable` node of the computation graph.  The
concrete Variable class is external to the source file; the spec records that
a Variable has a process-unique integer `uid`, a constant classification, and
an optional `History` holding an operation record and the ordered input
Variables.  The local chain rule of the producing operation is modelled, per
the spec's description of `chain_rule`, by one local derivative per input
(`localDerivs`, pairing with `inputs` positionally). -/
inductive Var : Type where
  | mk (uid : Nat) (isConst : Bool) (hasHist : Bool) (lastFn : Bool)
       (localDerivs : List ℚ) (inputs : List Var)

namespace Var

def uid : Var → Nat
  | .mk u _ _ _ _ _ => u

def isConst : Var → Bool
  | .mk _ c _ _ _ _ => c

def hasHist : Var → Bool
  | .mk _ _ h _ _ _ => h

def lastFn : Var → Bool
  | .mk _ _ _ l _ _ => l

def localDerivs : Var → List ℚ
  | .mk _ _ _ _ ds _ => ds

def inputs : Var → List Var
  | .mk _ _ _ _ _ ins => ins

/-- Modelled from the spec: `is_leaf` — a Variable is a leaf if it has no
History, or its History records no input-producing operation. -/
def is_leaf (v : Var) : Bool := !v.hasHist || !v.lastFn

/-- Modelled from the spec: `is_constant` — a Variable excluded from gradient
tracking. -/
def is_constant (v : Var) : Bool := v.isConst

/-- Modelled from the spec: `chain_rule` returns the ordered (input, local
gradient contribution) pairs, one per parent, the contribution being the
incoming gradient scaled by the operation's local derivative for that
input. -/
def chain_rule (v : Var) (d : ℚ) : List (Var × ℚ) :=
  (v.inputs.zip v.localDerivs).map (fun p => (p.1, d * p.2))

end Var

/-- State threaded through `topological_sort`'s inner `visit`: the
accumulation list `top_order` and the set of visited ids (as a list, newest
first). -/
structure TS where
  topOrder : List Var
  visited : List Nat

mutual

/-- The recursive `visit` of `topological_sort` (autodiff.py lines 74-82):
return if already visited; mark visited; if the node has a history, visit each
not-yet-visited input and then append the node to `top_order`. -/
def visit : Var → TS → TS
  | .mk u c h l ds ins, s =>
    if u ∈ s.visited then s
    else
      let s1 : TS := { s with visited := u :: s.visited }
      if h then
        let s2 := visitList ins s1
        { s2 with topOrder := s2.topOrder ++ [Var.mk u c h l ds ins] }
      else s1

/-- The `for neigh in variable.history.inputs` loop of `visit`: visit each
input whose id is not yet in the visited set. -/
def visitList : List Var → TS → TS
  | [], s => s
  | i :: rest, s =>
    visitList rest (if i.uid ∈ s.visited then s else visit i s)
end

/-- `topological_sort` (autodiff.py lines 61-85): seed `top_order` with the
root, run `visit` from the root, return the reversed accumulation list. -/
def topological_sort (v : Var) : List Var :=
  ((visit v { topOrder := [v], visited := [] }).topOrder).reverse

/-- State of `backpropagate`'s loop: the `cur_derivs` dict (id to gradient so
far) together with the instrumentation traces recording, in order, the
`accumulate_derivative` calls and the `chain_rule` calls made on graph
nodes (the observable side effects / queries of the loop). -/
structure BP where
  derivs : Nat → Option ℚ
  accCalls : List (Var × ℚ)
  crCalls : List (Var × ℚ)

/-- `cur_derivs[inp.unique_id] += grad` with absent keys created
(autodiff.py lines 111-114). -/
def updAdd (m : Nat → Option ℚ) (u : Nat) (g : ℚ) : Nat → Option ℚ :=
  fun x => if x = u then
    some (match m u with
          | some old => old + g
          | none => g)
  else m x

/-- One iteration of `backpropagate`'s loop (autodiff.py lines 102-114):
default the node's entry to 0, read the accumulated derivative; a leaf
receives an `accumulate_derivative` call, otherwise `chain_rule` is invoked
and each returned (input, grad) pair is added into the dict. -/
def bpStep (st : BP) (node : Var) : BP :=
  let d : ℚ := (st.derivs node.uid).getD 0
  let m0 : Nat → Option ℚ :=
    fun x => if x = node.uid then some d else st.derivs x
  if node.is_leaf then
    { derivs := m0, accCalls := st.accCalls ++ [(node, d)], crCalls := st.crCalls }
  else
    { derivs := (node.chain_rule d).foldl (fun m p => updAdd m p.1.uid p.2) m0,
      accCalls := st.accCalls,
      crCalls := st.crCalls ++ [(node, d)] }

/-- `backpropagate` (autodiff.py lines 88-114): obtain the topological order,
seed `cur_derivs` with the root's derivative, and fold the loop body over the
order. -/
def backpropagate (v : Var) (deriv : ℚ) : BP :=
  (topological_sort v).foldl bpStep
    { derivs := fun u => if u = v.uid then some deriv else none,
      accCalls := [], crCalls := [] }

/-- `Context` (autodiff.py lines 117-134). -/
structure Context where
  no_grad : Bool := false
  saved_values : List ℚ := []

/-- `save_for_backward` (autodiff.py lines 126-130): a no-op under `no_grad`,
otherwise overwrite the saved values. -/
def Context.save_for_backward (c : Context) (values : List ℚ) : Context :=
  if c.no_grad then c else { c with saved_values := values }

/-- `saved_tensors` (autodiff.py lines 132-134). -/
def Context.saved_tensors (c : Context) : List ℚ := c.saved_values

/-- `central_difference` (autodiff.py lines 10-33), instrumented with the list
of argument vectors `f` is applied to, in call order.  Python's float
arithmetic is embedded as exact rationals. -/
def central_difference (f : List ℚ → ℚ) (vals : List ℚ) (arg : Nat) (epsilon : ℚ) :
    ℚ × List (List ℚ) :=
  let new_vals_plus := vals.set arg (vals.getD arg 0 + epsilon)
  let new_vals_minus := vals.set arg (vals.getD arg 0 - epsilon)
  let f_plus := f new_vals_plus
  let f_minus := f new_vals_minus
  ((f_plus - f_minus) / (2 * epsilon), [new_vals_plus, new_vals_minus])

/-- The default `epsilon` of `central_difference` (`1e-6`). -/
def defaultEpsilon : ℚ := 1 / 1000000

/-! ### Infrastructure: decidable equality, subtree lists, reachability -/

mutual

/-- Boolean equality on `Var`. -/
def vbeq : Var → Var → Bool
  | .mk u1 c1 h1 l1 ds1 ins1, .mk u2 c2 h2 l2 ds2 ins2 =>
    u1 == u2 && c1 == c2 && h1 == h2 && l1 == l2 && ds1 == ds2 && vbeqList ins1 ins2

/-- Boolean equality on lists of `Var`. -/
def vbeqList : List Var → List Var → Bool
  | [], [] => true
  | a :: as, b :: bs => vbeq a b && vbeqList as bs
  | [], _ :: _ => false
  | _ :: _, [] => false

end


mutual

/-- All structural subtree copies of a node (the node itself included). -/
def varList : Var → List Var
  | .mk u c h l ds ins => Var.mk u c h l ds ins :: varListL ins

/-- All structural subtree copies of the nodes of a list. -/
def varListL : List Var → List Var
  | [] => []
  | i :: rest => varList i ++ varListL rest

end

/-- The spec's id invariant: within the graph rooted at `U`, no two distinct
Variables share a `unique_id` (so two copies with equal id are the same
node). -/
def UniqueIds (U : Var) : Prop :=
  ∀ a ∈ varList U, ∀ b ∈ varList U, a.uid = b.uid → a = b


/-- History-reachability between copies: `w` can be reached from `v` by
descending through inputs of history-bearing nodes (the edges the traversal
follows). -/
inductive HR : Var → Var → Prop where
  | refl (v : Var) : HR v v
  | step {v i w : Var} : v.hasHist = true → i ∈ v.inputs → HR i w → HR v w

/-- A node id is traversal-reachable from `v` when a copy bearing it is. -/
def uidReach (v : Var) (u : Nat) : Prop := ∃ w, HR v w ∧ w.uid = u

/-! ### The appended and marked deltas of `visit`

`visit` only reads `s.visited` to steer its control flow; its effect is to
append a block to `topOrder` and push a block of marks onto `visited`.  The
two blocks are computed by `newA` / `newM` below and tied to `visit` by
`visit_eq`. -/

mutual

/-- Ids newly marked visited by `visit v` when run with visited set `vis`
(in final list order, newest first). -/
def newM : Var → List Nat → List Nat
  | .mk u _ h _ _ ins, vis =>
    if u ∈ vis then []
    else if h then newMList ins (u :: vis) ++ [u]
    else [u]

/-- Ids newly marked visited by the input loop. -/
def newMList : List Var → List Nat → List Nat
  | [], _ => []
  | i :: rest, vis =>
    newMList rest ((if i.uid ∈ vis then [] else newM i vis) ++ vis) ++
      (if i.uid ∈ vis then [] else newM i vis)

end

mutual

/-- Nodes newly appended to `top_order` by `visit v` with visited set `vis`
(in append order). -/
def newA : Var → List Nat → List Var
  | .mk u c h l ds ins, vis =>
    if u ∈ vis then []
    else if h then newAList ins (u :: vis) ++ [Var.mk u c h l ds ins]
    else []

/-- Nodes newly appended by the input loop. -/
def newAList : List Var → List Nat → List Var
  | [], _ => []
  | i :: rest, vis =>
    (if i.uid ∈ vis then [] else newA i vis) ++
      newAList rest ((if i.uid ∈ vis then [] else newM i vis) ++ vis)

end

/-! ### Reference gradient semantics

`N1 v u` is the spec's total derivative of `v` with respect to the id `u`
for a unit seed: the sum, over all chain-rule paths from `v` to a node
carrying id `u` (descending only through non-leaf history-bearing nodes), of
the products of the local derivatives along the path.  History-less nodes
propagate nothing (`backpropagate` never reaches them). -/

mutual

/-- Unit-seed total derivative (sum over chain-rule paths of the products of
local derivatives). -/
def N1 : Var → Nat → ℚ
  | .mk u _ h l ds ins =>
    if h then
      if l then N1L ins ds
      else fun x => if x = u then 1 else 0
    else fun _ => 0

/-- Pointwise weighted sum of the inputs' unit-seed total derivatives. -/
def N1L : List Var → List ℚ → Nat → ℚ
  | i :: is, g :: gs => fun x => g * N1 i x + N1L is gs x
  | _, _ => fun _ => 0

end

/-- Modelled from the spec: the total derivative of the output at the root
with respect to the Variable with id `u` — the seed gradient times the sum
over all root-to-`u` chain-rule paths of the path-local gradient products. -/
def totalDeriv (root : Var) (deriv : ℚ) (u : Nat) : ℚ := deriv * N1 root u

/-- Sum of one gradient-weighted unit derivative per chain-rule pair. -/
def pairSum (pairs : List (Var × ℚ)) (u : Nat) : ℚ :=
  (pairs.map (fun p => p.2 * N1 p.1 u)).sum

/-! ### The gradient map and the accumulation trace -/

/-- Total accumulated value routed to id `u` by a call trace. -/
def accOf (calls : List (Var × ℚ)) (u : Nat) : ℚ :=
  ((calls.filter (fun p => p.1.uid == u)).map (fun p => p.2)).sum

/-- Pending gradient mass of a suffix: each node still to be processed
contributes its current map entry times its unit-seed total derivative. -/
def phiSum (m : Nat → Option ℚ) (L : List Var) (u : Nat) : ℚ :=
  (L.map (fun w => (m w.uid).getD 0 * N1 w u)).sum

/-- The proper traversal part of the returned order: everything before the
trailing duplicate of the root. -/
def mainSeq (root : Var) : List Var := (newA root []).reverse

/-! ### Concrete graphs used to instantiate and to refute -/

/-- A bare leaf: no history, not constant. -/
def cexLeaf : Var := .mk 1 false false false [] []

/-- A root whose only input is the bare leaf. -/
def cexRoot : Var := .mk 0 false true true [1] [cexLeaf]

/-- A leaf carrying an empty history (no recorded operation). -/
def chainLeaf : Var := .mk 3 false true false [] []

/-- A root whose only input is the empty-history leaf, local derivative 2. -/
def chainRoot : Var := .mk 0 false true true [2] [chainLeaf]

/-- A constant root: flagged constant, no history. -/
def constRoot : Var := .mk 9 true false false [] []

/-- A constant input: flagged constant, no history. -/
def constLeaf : Var := .mk 7 true false false [] []

/-- A root over one tracked leaf and one constant. -/
def mixedRoot : Var := .mk 0 false true true [2, 5] [chainLeaf, constLeaf]

/-- The shared leaf of the diamond, with an empty history. -/
def diaLeaf : Var := .mk 3 false true false [] []

/-- Left intermediate node of the diamond. -/
def diaB (gb : ℚ) : Var := .mk 1 false true true [gb] [diaLeaf]

/-- Right intermediate node of the diamond. -/
def diaC (gc : ℚ) : Var := .mk 2 false true true [gc] [diaLeaf]

/-- The diamond `d = a(b(x), c(x))`: both intermediates consume the same
leaf. -/
def diaRoot (g1 g2 gb gc : ℚ) : Var := .mk 0 false true true [g1, g2] [diaB gb, diaC gc]

/-- The diamond over a bare (history-less) shared leaf. -/
def diaLeafN : Var := .mk 3 false false false [] []

def diaBN : Var := .mk 1 false true true [5] [diaLeafN]

def diaCN : Var := .mk 2 false true true [7] [diaLeafN]

def diaRootN : Var := .mk 0 false true true [11, 13] [diaBN, diaCN]

/-- A sample square function for the finite-difference instance. -/
def cdF : List ℚ → ℚ := fun l => l.getD 0 0 * l.getD 0 0

mutual

theorem vbeq_iff : ∀ a b : Var, vbeq a b = true ↔ a = b
  | .mk u1 c1 h1 l1 ds1 ins1, .mk u2 c2 h2 l2 ds2 ins2 => by
    simp only [vbeq, Bool.and_eq_true, beq_iff_eq, Var.mk.injEq]
    constructor
    · rintro ⟨⟨⟨⟨⟨h1, h2⟩, h3⟩, h4⟩, h5⟩, h6⟩
      exact ⟨h1, h2, h3, h4, h5, (vbeqList_iff ins1 ins2).1 h6⟩
    · rintro ⟨h1, h2, h3, h4, h5, h6⟩
      exact ⟨⟨⟨⟨⟨h1, h2⟩, h3⟩, h4⟩, h5⟩, (vbeqList_iff ins1 ins2).2 h6⟩

theorem vbeqList_iff : ∀ as bs : List Var, vbeqList as bs = true ↔ as = bs
  | [], [] => by simp [vbeqList]
  | a :: as, b :: bs => by
    simp only [vbeqList, Bool.and_eq_true, List.cons.injEq]
    exact and_congr (vbeq_iff a b) (vbeqList_iff as bs)
  | [], _ :: _ => by simp [vbeqList]
  | _ :: _, [] => by simp [vbeqList]

end

instance : DecidableEq Var := fun a b => decidable_of_iff _ (vbeq_iff a b)

instance (U : Var) : Decidable (UniqueIds U) := by
  unfold UniqueIds; infer_instance

mutual

theorem visit_eq : ∀ (v : Var) (s : TS),
    visit v s = { topOrder := s.topOrder ++ newA v s.visited,
                  visited := newM v s.visited ++ s.visited }
  | .mk u c h l ds ins, s => by
    rw [visit, newA, newM]
    by_cases hu : u ∈ s.visited
    · simp [hu]
    · simp only [hu, if_false]
      by_cases hh : h
      · subst hh
        simp only [if_true]
        rw [visitList_eq ins { s with visited := u :: s.visited }]
        simp
      · simp only [Bool.not_eq_true] at hh
        subst hh
        simp

theorem visitList_eq : ∀ (L : List Var) (s : TS),
    visitList L s = { topOrder := s.topOrder ++ newAList L s.visited,
                      visited := newMList L s.visited ++ s.visited }
  | [], s => by simp [visitList, newAList, newMList]
  | i :: rest, s => by
    rw [visitList, newAList, newMList]
    by_cases hu : i.uid ∈ s.visited
    · simp only [hu, if_true]
      rw [visitList_eq rest s]
      simp
    · simp only [hu, if_false]
      rw [visit_eq i s, visitList_eq rest]
      simp

end

/-! ### Basic facts about `varList`, sizes and reachability -/

theorem varList_def (u c h l ds ins) :
    varList (.mk u c h l ds ins) = Var.mk u c h l ds ins :: varListL ins := by
  rw [varList]

theorem mem_varList_self (v : Var) : v ∈ varList v := by
  cases v with
  | mk u c h l ds ins => rw [varList]; exact List.mem_cons_self _ _

theorem mem_varListL_of_mem {i : Var} {L : List Var} (hi : i ∈ L) {x : Var}
    (hx : x ∈ varList i) : x ∈ varListL L := by
  induction L with
  | nil => cases hi
  | cons a rest ih =>
    rw [varListL]
    rcases List.mem_cons.1 hi with h | h
    · subst h; exact List.mem_append.2 (Or.inl hx)
    · exact List.mem_append.2 (Or.inr (ih h))

theorem mem_varList_of_input {v i : Var} (hi : i ∈ v.inputs) {x : Var}
    (hx : x ∈ varList i) : x ∈ varList v := by
  cases v with
  | mk u c h l ds ins =>
    rw [varList]
    exact List.mem_cons.2 (Or.inr (mem_varListL_of_mem hi hx))

mutual

theorem sizeOf_le_of_mem_varList : ∀ {y : Var} {x : Var}, x ∈ varList y → sizeOf x ≤ sizeOf y
  | .mk u c h l ds ins, x => by
    intro hx
    rw [varList] at hx
    rcases List.mem_cons.1 hx with h | h
    · subst h; exact le_refl _
    · have := sizeOf_le_of_mem_varListL h
      simp only [Var.mk.sizeOf_spec]
      omega

theorem sizeOf_le_of_mem_varListL : ∀ {L : List Var} {x : Var}, x ∈ varListL L → sizeOf x ≤ sizeOf L
  | [], x => by intro hx; rw [varListL] at hx; cases hx
  | i :: rest, x => by
    intro hx
    rw [varListL] at hx
    simp only [List.cons.sizeOf_spec]
    rcases List.mem_append.1 hx with h | h
    · have := sizeOf_le_of_mem_varList h; omega
    · have := sizeOf_le_of_mem_varListL h; omega

end

theorem sizeOf_input_lt {v i : Var} (hi : i ∈ v.inputs) : sizeOf i < sizeOf v := by
  cases v with
  | mk u c h l ds ins =>
    simp only [Var.inputs] at hi
    have h1 := List.sizeOf_lt_of_mem hi
    simp only [Var.mk.sizeOf_spec]
    omega

mutual

theorem varList_trans : ∀ {U : Var} {v x : Var}, x ∈ varList v → v ∈ varList U → x ∈ varList U
  | .mk u c h l ds ins, v, x => by
    intro hx hv
    rw [varList] at hv ⊢
    rcases List.mem_cons.1 hv with h1 | h1
    · subst h1; rw [varList] at hx; exact hx
    · exact List.mem_cons.2 (Or.inr (varListL_trans hx h1))

theorem varListL_trans : ∀ {L : List Var} {v x : Var}, x ∈ varList v → v ∈ varListL L → x ∈ varListL L
  | [], v, x => by intro _ hv; rw [varListL] at hv; cases hv
  | i :: rest, v, x => by
    intro hx hv
    rw [varListL] at hv ⊢
    rcases List.mem_append.1 hv with h1 | h1
    · exact List.mem_append.2 (Or.inl (varList_trans hx h1))
    · exact List.mem_append.2 (Or.inr (varListL_trans hx h1))

end

/-- An input copy never carries the id of its own parent (under unique ids it
would be the parent itself, which is impossible by size). -/
theorem input_uid_ne {U v i : Var} (hU : UniqueIds U) (hv : v ∈ varList U)
    (hi : i ∈ v.inputs) : i.uid ≠ v.uid := by
  intro heq
  have hiU : i ∈ varList U := by
    have h1 : i ∈ varList v := by
      cases v with
      | mk u c h l ds ins =>
        rw [varList]
        refine List.mem_cons.2 (Or.inr ?_)
        simp only [Var.inputs] at hi
        exact mem_varListL_of_mem hi (mem_varList_self i)
    -- transport membership from `varList v` to `varList U`
    exact varList_trans h1 hv
  have := hU i hiU v hv heq
  subst this
  exact absurd (sizeOf_input_lt hi) (lt_irrefl _)

theorem HR.mem_varList {v w : Var} (h : HR v w) : w ∈ varList v := by
  induction h with
  | refl v => exact mem_varList_self v
  | step hh hi _ ih => exact mem_varList_of_input hi ih

theorem HR.trans {v w x : Var} (h1 : HR v w) (h2 : HR w x) : HR v x := by
  induction h1 with
  | refl => exact h2
  | step hh hi _ ih => exact HR.step hh hi (ih h2)

theorem mem_varList_input {v i : Var} (hi : i ∈ v.inputs) : i ∈ varList v :=
  mem_varList_of_input hi (mem_varList_self i)

/-! ### Generic list split helpers -/

theorem append_singleton_split {α : Type} {xs P Q : List α} {a w : α}
    (h : xs ++ [a] = P ++ w :: Q) :
    (Q = [] ∧ P = xs ∧ w = a) ∨ (∃ Q1, Q = Q1 ++ [a] ∧ xs = P ++ w :: Q1) := by
  rcases Q.eq_nil_or_concat with hQ | ⟨Q1, b, hQ⟩
  · subst hQ
    left
    have h1 := List.append_inj' h rfl
    have h2 : a = w := by simpa using h1.2
    exact ⟨rfl, h1.1.symm, h2.symm⟩
  · subst hQ
    right
    have h2 : xs ++ [a] = (P ++ w :: Q1) ++ [b] := by simpa using h
    have h1 := List.append_inj' h2 rfl
    have h3 : a = b := by simpa using h1.2
    exact ⟨Q1, by simp [h3, List.concat_eq_append], h1.1⟩

theorem append_cons_split {α : Type} {xs ys P Q : List α} {w : α}
    (h : xs ++ ys = P ++ w :: Q) :
    (∃ Q1, xs = P ++ w :: Q1 ∧ Q = Q1 ++ ys) ∨ (∃ P1, P = xs ++ P1 ∧ ys = P1 ++ w :: Q) := by
  induction xs generalizing P with
  | nil =>
    right
    exact ⟨P, rfl, h⟩
  | cons x xs ih =>
    cases P with
    | nil =>
      left
      simp only [List.cons_append, List.nil_append] at h
      rw [List.cons_eq_cons] at h
      exact ⟨xs, by simp [h.1], h.2.symm⟩
    | cons p P =>
      simp only [List.cons_append, List.cons_eq_cons] at h
      rcases ih h.2 with ⟨Q1, h1, h2⟩ | ⟨P1, h1, h2⟩
      · exact Or.inl ⟨Q1, by simp [h.1, h1], h2⟩
      · exact Or.inr ⟨P1, by simp [h.1, h1], h2⟩

/-! ### Coverage, freshness and distinctness of the visit deltas -/

/-- The node a `visit` call starts at ends up marked. -/
theorem newM_cover : ∀ (v : Var) (vis : List Nat), v.uid ∈ newM v vis ∨ v.uid ∈ vis
  | .mk u c h l ds ins, vis => by
    rw [newM]
    by_cases hu : u ∈ vis
    · exact Or.inr hu
    · left
      simp only [hu, if_false, Var.uid]
      by_cases hh : h <;> simp [hh]

/-- Every input scanned by the loop ends up marked. -/
theorem newMList_cover : ∀ (L : List Var) (vis : List Nat),
    ∀ i ∈ L, i.uid ∈ newMList L vis ∨ i.uid ∈ vis
  | [], _, i, hi => by cases hi
  | i0 :: rest, vis, i, hi => by
    rw [newMList]
    rcases List.mem_cons.1 hi with h | h
    · subst h
      by_cases hu : i.uid ∈ vis
      · exact Or.inr hu
      · rcases newM_cover i vis with h1 | h1
        · left; simp only [hu, if_false]; exact List.mem_append.2 (Or.inr h1)
        · exact absurd h1 hu
    · rcases newMList_cover rest ((if i0.uid ∈ vis then [] else newM i0 vis) ++ vis) i h with h1 | h1
      · exact Or.inl (List.mem_append.2 (Or.inl h1))
      · rcases List.mem_append.1 h1 with h2 | h2
        · exact Or.inl (List.mem_append.2 (Or.inr h2))
        · exact Or.inr h2

mutual

/-- Newly marked ids were not previously visited. -/
theorem newM_fresh : ∀ (v : Var) (vis : List Nat), ∀ u ∈ newM v vis, u ∉ vis
  | .mk u0 c h l ds ins, vis => by
    rw [newM]
    by_cases hu : u0 ∈ vis
    · simp [hu]
    · simp only [hu, if_false]
      by_cases hh : h
      · subst hh
        simp only [if_true]
        intro u hmem
        rcases List.mem_append.1 hmem with h1 | h1
        · have := newMList_fresh ins (u0 :: vis) u h1
          intro hv; exact this (List.mem_cons.2 (Or.inr hv))
        · rcases List.mem_singleton.1 h1 with rfl
          exact hu
      · simp only [Bool.not_eq_true] at hh
        subst hh
        simp only [Bool.false_eq_true, if_false]
        intro u hmem
        rcases List.mem_singleton.1 hmem with rfl
        exact hu

theorem newMList_fresh : ∀ (L : List Var) (vis : List Nat), ∀ u ∈ newMList L vis, u ∉ vis
  | [], vis => by rw [newMList]; intro u h; cases h
  | i0 :: rest, vis => by
    rw [newMList]
    intro u hmem
    rcases List.mem_append.1 hmem with h1 | h1
    · intro hv
      have := newMList_fresh rest ((if i0.uid ∈ vis then [] else newM i0 vis) ++ vis) u h1
      exact this (List.mem_append.2 (Or.inr hv))
    · by_cases hu : i0.uid ∈ vis
      · simp [hu] at h1
      · simp only [hu, if_false] at h1
        exact newM_fresh i0 vis u h1

end

mutual

theorem newM_nodup : ∀ (v : Var) (vis : List Nat), (newM v vis).Nodup
  | .mk u0 c h l ds ins, vis => by
    rw [newM]
    by_cases hu : u0 ∈ vis
    · simp [hu]
    · simp only [hu, if_false]
      by_cases hh : h
      · subst hh
        simp only [if_true]
        rw [List.nodup_append]
        refine ⟨newMList_nodup ins (u0 :: vis), List.nodup_singleton _, ?_⟩
        intro a ha hb
        have hab := List.mem_singleton.1 hb
        rw [hab] at ha
        exact newMList_fresh ins (u0 :: vis) u0 ha (List.mem_cons_self _ _)
      · simp only [Bool.not_eq_true] at hh
        subst hh
        simp

theorem newMList_nodup : ∀ (L : List Var) (vis : List Nat), (newMList L vis).Nodup
  | [], vis => by rw [newMList]; exact List.nodup_nil
  | i0 :: rest, vis => by
    rw [newMList]
    rw [List.nodup_append]
    refine ⟨newMList_nodup rest ((if i0.uid ∈ vis then [] else newM i0 vis) ++ vis), ?_, ?_⟩
    · by_cases hu : i0.uid ∈ vis
      · simp [hu]
      · simpa [hu] using newM_nodup i0 vis
    · intro a ha hb
      exact newMList_fresh rest ((if i0.uid ∈ vis then [] else newM i0 vis) ++ vis) a ha
        (List.mem_append.2 (Or.inl hb))

end

mutual

/-- Every freshly marked id belongs to a reachable copy; if that copy bears a
history it is appended, and by the time the call returns all of its inputs are
marked. -/
theorem newM_copy : ∀ (v : Var) (vis : List Nat), ∀ u ∈ newM v vis,
    ∃ w, HR v w ∧ w.uid = u ∧ (w.hasHist = true → w ∈ newA v vis) ∧
      (w.hasHist = true → ∀ i ∈ w.inputs, i.uid ∈ newM v vis ∨ i.uid ∈ vis)
  | .mk u0 c h l ds ins, vis => by
    rw [newM, newA]
    by_cases hu : u0 ∈ vis
    · simp [hu]
    · simp only [hu, if_false]
      by_cases hh : h
      · subst hh
        simp only [if_true]
        intro u hmem
        rcases List.mem_append.1 hmem with h1 | h1
        · rcases newMList_copy ins (u0 :: vis) u h1 with ⟨x, hx, w, hr, huid, hA, hIn⟩
          refine ⟨w, HR.step (by simp [Var.hasHist]) (by simpa [Var.inputs] using hx) hr,
            huid, ?_, ?_⟩
          · intro hwh
            exact List.mem_append.2 (Or.inl (hA hwh))
          · intro hwh i hi
            rcases hIn hwh i hi with h2 | h2
            · exact Or.inl (List.mem_append.2 (Or.inl h2))
            · rcases List.mem_cons.1 h2 with h3 | h3
              · exact Or.inl (List.mem_append.2 (Or.inr (by simp [h3])))
              · exact Or.inr h3
        · rcases List.mem_singleton.1 h1 with rfl
          refine ⟨Var.mk u c true l ds ins, HR.refl _, rfl, ?_, ?_⟩
          · intro _
            exact List.mem_append.2 (Or.inr (by simp))
          · intro _ i hi
            simp only [Var.inputs] at hi
            rcases newMList_cover ins (u :: vis) i hi with h2 | h2
            · exact Or.inl (List.mem_append.2 (Or.inl h2))
            · rcases List.mem_cons.1 h2 with h3 | h3
              · exact Or.inl (List.mem_append.2 (Or.inr (by simp [h3])))
              · exact Or.inr h3
      · simp only [Bool.not_eq_true] at hh
        subst hh
        simp only [Bool.false_eq_true, if_false]
        intro u hmem
        rcases List.mem_singleton.1 hmem with rfl
        refine ⟨Var.mk u c false l ds ins, HR.refl _, rfl, ?_, ?_⟩
        · intro habs; simp [Var.hasHist] at habs
        · intro habs; simp [Var.hasHist] at habs

theorem newMList_copy : ∀ (L : List Var) (vis : List Nat), ∀ u ∈ newMList L vis,
    ∃ x ∈ L, ∃ w, HR x w ∧ w.uid = u ∧ (w.hasHist = true → w ∈ newAList L vis) ∧
      (w.hasHist = true → ∀ i ∈ w.inputs, i.uid ∈ newMList L vis ∨ i.uid ∈ vis)
  | [], vis => by rw [newMList]; intro u h; cases h
  | i0 :: rest, vis => by
    rw [newMList, newAList]
    intro u hmem
    rcases List.mem_append.1 hmem with h1 | h1
    · rcases newMList_copy rest ((if i0.uid ∈ vis then [] else newM i0 vis) ++ vis) u h1
        with ⟨x, hx, w, hr, huid, hA, hIn⟩
      refine ⟨x, List.mem_cons.2 (Or.inr hx), w, hr, huid, ?_, ?_⟩
      · intro hwh
        exact List.mem_append.2 (Or.inr (hA hwh))
      · intro hwh i hi
        rcases hIn hwh i hi with h2 | h2
        · exact Or.inl (List.mem_append.2 (Or.inl h2))
        · rcases List.mem_append.1 h2 with h3 | h3
          · exact Or.inl (List.mem_append.2 (Or.inr h3))
          · exact Or.inr h3
    · by_cases hu : i0.uid ∈ vis
      · simp [hu] at h1
      · simp only [hu, if_false] at h1
        rcases newM_copy i0 vis u h1 with ⟨w, hr, huid, hA, hIn⟩
        refine ⟨i0, List.mem_cons_self _ _, w, hr, huid, ?_, ?_⟩
        · intro hwh
          exact List.mem_append.2 (Or.inl (by simpa [hu] using hA hwh))
        · intro hwh i hi
          rcases hIn hwh i hi with h2 | h2
          · exact Or.inl (List.mem_append.2 (Or.inr (by simpa [hu] using h2)))
          · exact Or.inr h2

end

mutual

/-- Every appended node bears a history, is reachable, and is freshly
marked. -/
theorem newA_elem : ∀ (v : Var) (vis : List Nat), ∀ w ∈ newA v vis,
    w.hasHist = true ∧ HR v w ∧ w.uid ∈ newM v vis
  | .mk u0 c h l ds ins, vis => by
    rw [newA, newM]
    by_cases hu : u0 ∈ vis
    · simp [hu]
    · simp only [hu, if_false]
      by_cases hh : h
      · subst hh
        simp only [if_true]
        intro w hmem
        rcases List.mem_append.1 hmem with h1 | h1
        · rcases newAList_elem ins (u0 :: vis) w h1 with ⟨x, hx, hwh, hr, hm⟩
          exact ⟨hwh, HR.step (by simp [Var.hasHist]) (by simpa [Var.inputs] using hx) hr,
            List.mem_append.2 (Or.inl hm)⟩
        · rcases List.mem_singleton.1 h1 with rfl
          exact ⟨by simp [Var.hasHist], HR.refl _, List.mem_append.2 (Or.inr (by simp [Var.uid]))⟩
      · simp only [Bool.not_eq_true] at hh
        subst hh
        simp

theorem newAList_elem : ∀ (L : List Var) (vis : List Nat), ∀ w ∈ newAList L vis,
    ∃ x ∈ L, w.hasHist = true ∧ HR x w ∧ w.uid ∈ newMList L vis
  | [], vis => by rw [newAList]; intro w h; cases h
  | i0 :: rest, vis => by
    rw [newAList, newMList]
    intro w hmem
    rcases List.mem_append.1 hmem with h1 | h1
    · by_cases hu : i0.uid ∈ vis
      · simp [hu] at h1
      · simp only [hu, if_false] at h1
        rcases newA_elem i0 vis w h1 with ⟨hwh, hr, hm⟩
        exact ⟨i0, List.mem_cons_self _ _, hwh, hr,
          List.mem_append.2 (Or.inr (by simpa [hu] using hm))⟩
    · rcases newAList_elem rest ((if i0.uid ∈ vis then [] else newM i0 vis) ++ vis) w h1
        with ⟨x, hx, hwh, hr, hm⟩
      exact ⟨x, List.mem_cons.2 (Or.inr hx), hwh, hr, List.mem_append.2 (Or.inl hm)⟩

end

mutual

/-- No id is appended twice. -/
theorem newA_uid_nodup : ∀ (v : Var) (vis : List Nat), ((newA v vis).map Var.uid).Nodup
  | .mk u0 c h l ds ins, vis => by
    rw [newA]
    by_cases hu : u0 ∈ vis
    · simp [hu]
    · simp only [hu, if_false]
      by_cases hh : h
      · subst hh
        simp only [if_true]
        rw [List.map_append, List.nodup_append]
        refine ⟨newAList_uid_nodup ins (u0 :: vis), by simp, ?_⟩
        intro a ha hb
        simp only [List.map_cons, List.map_nil, List.mem_singleton, Var.uid] at hb
        rcases List.mem_map.1 ha with ⟨w, hw, hwu⟩
        rcases newAList_elem ins (u0 :: vis) w hw with ⟨x, hx, hwh, hr, hm⟩
        rw [hwu.trans hb] at hm
        exact newMList_fresh ins (u0 :: vis) u0 hm (List.mem_cons_self _ _)
      · simp only [Bool.not_eq_true] at hh
        subst hh
        simp

theorem newAList_uid_nodup : ∀ (L : List Var) (vis : List Nat),
    ((newAList L vis).map Var.uid).Nodup
  | [], vis => by rw [newAList]; simp
  | i0 :: rest, vis => by
    rw [newAList]
    rw [List.map_append, List.nodup_append]
    refine ⟨?_, newAList_uid_nodup rest ((if i0.uid ∈ vis then [] else newM i0 vis) ++ vis), ?_⟩
    · by_cases hu : i0.uid ∈ vis
      · simp [hu]
      · simpa [hu] using newA_uid_nodup i0 vis
    · intro a ha hb
      rcases List.mem_map.1 ha with ⟨w, hw, hwu⟩
      rcases List.mem_map.1 hb with ⟨w2, hw2, hwu2⟩
      by_cases hu : i0.uid ∈ vis
      · simp [hu] at hw
      · simp only [hu, if_false] at hw
        rcases newA_elem i0 vis w hw with ⟨_, _, hm⟩
        rcases newAList_elem rest (newM i0 vis ++ vis) w2 (by simpa [hu] using hw2)
          with ⟨x, hx, _, _, hm2⟩
        have hfresh := newMList_fresh rest (newM i0 vis ++ vis) w2.uid hm2
        rw [hwu] at hm
        rw [hwu2] at hfresh
        exact hfresh (List.mem_append.2 (Or.inl hm))

end

mutual

/-- Ordering of the appended block: when a node is appended, each of its
history-bearing inputs has already been appended (or was visited before the
call started).  Stated on an arbitrary split of the append block. -/
theorem newA_order : ∀ (v : Var) (vis : List Nat) (U : Var), UniqueIds U → v ∈ varList U →
    ∀ P w Q, newA v vis = P ++ w :: Q → ∀ i ∈ w.inputs, i.hasHist = true →
      i.uid ∈ vis ∨ ∃ i2 ∈ P, i2.uid = i.uid
  | .mk u0 c h l ds ins, vis => by
    intro U hU hv P w Q hsplit i hi hih
    rw [newA] at hsplit
    by_cases hu : u0 ∈ vis
    · simp only [hu, if_true] at hsplit
      cases P <;> simp at hsplit
    · simp only [hu, if_false] at hsplit
      by_cases hh : h
      · subst hh
        simp only [if_true] at hsplit
        rcases append_singleton_split hsplit with ⟨hQ, hP, hw⟩ | ⟨Q1, hQ, hAL⟩
        · -- w is the node itself, P is the whole loop block
          subst hw
          have hi2 : i ∈ ins := by simpa [Var.inputs] using hi
          rcases newMList_cover ins (u0 :: vis) i hi2 with h1 | h1
          · -- i was marked during the loop: its copy got appended
            rcases newMList_copy ins (u0 :: vis) i.uid h1 with ⟨x, hx, w2, hr, huid, hA, _⟩
            have hxin : x ∈ (Var.mk u0 c true l ds ins).inputs := by
              simpa [Var.inputs] using hx
            have hxU : x ∈ varList U := varList_trans (mem_varList_input hxin) hv
            have hw2U : w2 ∈ varList U := varList_trans (HR.mem_varList hr) hxU
            have hiU : i ∈ varList U := varList_trans (mem_varList_input hi) hv
            have hw2i : w2 = i := hU w2 hw2U i hiU huid
            subst hw2i
            refine Or.inr ⟨w2, ?_, huid⟩
            rw [hP]
            exact hA hih
          · rcases List.mem_cons.1 h1 with h2 | h2
            · exact absurd h2 (input_uid_ne hU hv hi)
            · exact Or.inl h2
        · -- w lies inside the loop block
          have hmemw : w ∈ newAList ins (u0 :: vis) := by
            rw [hAL]; exact List.mem_append.2 (Or.inr (List.mem_cons_self _ _))
          have hins : ∀ x ∈ ins, x ∈ varList U := by
            intro x hx
            have hxin : x ∈ (Var.mk u0 c true l ds ins).inputs := by
              simpa [Var.inputs] using hx
            exact varList_trans (mem_varList_input hxin) hv
          rcases newAList_order ins (u0 :: vis) U hU hins P w Q1 hAL i hi hih with h1 | h1
          · rcases List.mem_cons.1 h1 with h2 | h2
            · -- an input of w carrying the gray root id: impossible in a DAG
              exfalso
              rcases newAList_elem ins (u0 :: vis) w hmemw with ⟨x, hx, _, hr, _⟩
              have hxin : x ∈ (Var.mk u0 c true l ds ins).inputs := by
                simpa [Var.inputs] using hx
              have hxU : x ∈ varList U := varList_trans (mem_varList_input hxin) hv
              have hiU : i ∈ varList U :=
                varList_trans (mem_varList_input hi) (varList_trans (HR.mem_varList hr) hxU)
              have hiuid : i.uid = (Var.mk u0 c true l ds ins).uid := by
                simpa [Var.uid] using h2
              have hiv : i = Var.mk u0 c true l ds ins := hU i hiU _ hv hiuid
              have hs1 : sizeOf i < sizeOf w := sizeOf_input_lt hi
              have hs2 : sizeOf w ≤ sizeOf x := sizeOf_le_of_mem_varList (HR.mem_varList hr)
              have hs3 : sizeOf x < sizeOf (Var.mk u0 c true l ds ins) := sizeOf_input_lt hxin
              rw [hiv] at hs1
              omega
            · exact Or.inl h2
          · exact Or.inr h1
      · simp only [Bool.not_eq_true] at hh
        subst hh
        simp only [Bool.false_eq_true, if_false] at hsplit
        cases P <;> simp at hsplit

theorem newAList_order : ∀ (L : List Var) (vis : List Nat) (U : Var), UniqueIds U →
    (∀ x ∈ L, x ∈ varList U) →
    ∀ P w Q, newAList L vis = P ++ w :: Q → ∀ i ∈ w.inputs, i.hasHist = true →
      i.uid ∈ vis ∨ ∃ i2 ∈ P, i2.uid = i.uid
  | [], vis => by
    intro U hU hL P w Q hsplit
    simp only [newAList] at hsplit
    cases P <;> simp at hsplit
  | i0 :: rest, vis => by
    intro U hU hL P w Q hsplit i hi hih
    rw [newAList] at hsplit
    rcases append_cons_split hsplit with ⟨Q1, ha0, hQ⟩ | ⟨P1, hP, hAR⟩
    · -- w lies in the block produced by the first input
      by_cases hu : i0.uid ∈ vis
      · rw [if_pos hu] at ha0; cases P <;> simp at ha0
      · rw [if_neg hu] at ha0
        exact newA_order i0 vis U hU (hL i0 (List.mem_cons_self _ _)) P w Q1 ha0 i hi hih
    · -- w lies in the block produced by the remaining inputs
      have hrest : ∀ x ∈ rest, x ∈ varList U := fun x hx => hL x (List.mem_cons.2 (Or.inr hx))
      rcases newAList_order rest ((if i0.uid ∈ vis then [] else newM i0 vis) ++ vis) U hU hrest
          P1 w Q hAR i hi hih with h1 | h1
      · rcases List.mem_append.1 h1 with h2 | h2
        · by_cases hu : i0.uid ∈ vis
          · simp [hu] at h2
          · rw [if_neg hu] at h2
            -- i was marked while visiting the first input: its copy is in that block
            rcases newM_copy i0 vis i.uid h2 with ⟨w2, hr, huid, hA, _⟩
            have hw2U : w2 ∈ varList U :=
              varList_trans (HR.mem_varList hr) (hL i0 (List.mem_cons_self _ _))
            rw [if_neg hu] at hAR
            have hwmem : w ∈ newAList rest (newM i0 vis ++ vis) := by
              rw [hAR]; exact List.mem_append.2 (Or.inr (List.mem_cons_self _ _))
            rcases newAList_elem rest (newM i0 vis ++ vis) w hwmem with ⟨x, hx, _, hrw, _⟩
            have hiU : i ∈ varList U :=
              varList_trans (mem_varList_input hi)
                (varList_trans (HR.mem_varList hrw) (hrest x hx))
            have hw2i : w2 = i := hU w2 hw2U i hiU huid
            subst hw2i
            refine Or.inr ⟨w2, ?_, huid⟩
            rw [hP]
            exact List.mem_append.2 (Or.inl (by rw [if_neg hu]; exact hA hih))
        · exact Or.inl h2
      · rcases h1 with ⟨i2, hi2, hi2u⟩
        refine Or.inr ⟨i2, ?_, hi2u⟩
        rw [hP]
        exact List.mem_append.2 (Or.inr hi2)

end

/-! ### Top-level structure of `topological_sort` -/

/-- The output of `topological_sort` is the reversed appended block followed
by the initial seeding of the root. -/
theorem topological_sort_shape (v : Var) :
    topological_sort v = (newA v []).reverse ++ [v] := by
  unfold topological_sort
  rw [visit_eq]
  simp

/-- When the root has a history, the appended block ends with the root. -/
theorem newA_root_last : ∀ (v : Var), v.hasHist = true →
    ∃ AL, newA v [] = AL ++ [v]
  | .mk u0 c h l ds ins => by
    intro hh
    simp only [Var.hasHist] at hh
    subst hh
    rw [newA]
    simp only [List.not_mem_nil, if_false, if_true]
    exact ⟨newAList ins [u0], rfl⟩

/-- When the root has no history, nothing is appended. -/
theorem newA_root_nil : ∀ (v : Var), v.hasHist = false → newA v [] = []
  | .mk u0 c h l ds ins => by
    intro hh
    simp only [Var.hasHist] at hh
    subst hh
    rw [newA]
    simp

/-- The root is the first element of the returned order. -/
theorem topological_sort_head (v : Var) : (topological_sort v).head? = some v := by
  rw [topological_sort_shape]
  by_cases hh : v.hasHist
  · rcases newA_root_last v hh with ⟨AL, hAL⟩
    rw [hAL]
    simp
  · rw [newA_root_nil v (by simpa using hh)]
    simp

/-- Every id reachable from the root is marked by the end of the sort. -/
theorem reach_marked (root : Var) (hU : UniqueIds root) :
    ∀ w, HR root w → w.uid ∈ newM root [] := by
  have hroot : root.uid ∈ newM root [] := by
    rcases newM_cover root [] with h | h
    · exact h
    · cases h
  suffices h : ∀ v w, HR v w → v ∈ varList root → v.uid ∈ newM root [] →
      w.uid ∈ newM root [] by
    intro w hw
    exact h root w hw (mem_varList_self root) hroot
  intro v w hvw
  induction hvw with
  | refl v => intro _ hv; exact hv
  | step hh hi hr ih =>
    intro hvU hvF
    rename_i v i w
    rcases newM_copy root [] v.uid hvF with ⟨w2, hr2, huid, _, hIn⟩
    have hw2 : w2 = v := hU w2 (HR.mem_varList hr2) v hvU huid
    subst hw2
    have hiF : i.uid ∈ newM root [] := by
      rcases hIn hh i hi with h1 | h1
      · exact h1
      · cases h1
    exact ih (varList_trans (mem_varList_input hi) hvU) hiF

/-- Every history-bearing node reachable from the root is appended. -/
theorem reach_appended (root : Var) (hU : UniqueIds root) :
    ∀ w, HR root w → w.hasHist = true → w ∈ newA root [] := by
  intro w hw hwh
  have hm := reach_marked root hU w hw
  rcases newM_copy root [] w.uid hm with ⟨w2, hr2, huid, hA, _⟩
  have hw2 : w2 = w := hU w2 (HR.mem_varList hr2) w (HR.mem_varList hw) huid
  subst hw2
  exact hA hwh

/-- The root is appended exactly when it has a history. -/
theorem root_mem_newA (root : Var) (hU : UniqueIds root) :
    root ∈ newA root [] ↔ root.hasHist = true := by
  constructor
  · intro h
    exact (newA_elem root [] root h).1
  · intro h
    exact reach_appended root hU root (HR.refl root) h

/-- Id multiplicities in the returned order: the root id occurs twice when
the root has a history (once otherwise); every other id occurs at most
once. -/
theorem topological_sort_uid_count (root : Var) (u : Nat) :
    ((topological_sort root).map Var.uid).count u =
      ((newA root []).map Var.uid).count u + (if u = root.uid then 1 else 0) := by
  rw [topological_sort_shape]
  rw [List.map_append, List.count_append]
  congr 1
  · rw [List.map_reverse, List.count_reverse]
  · simp [List.count_singleton', Var.uid, eq_comm]

theorem newA_uid_count_le_one (root : Var) (vis : List Nat) (u : Nat) :
    ((newA root vis).map Var.uid).count u ≤ 1 :=
  List.nodup_iff_count_le_one.1 (newA_uid_nodup root vis) u

theorem topological_sort_count_root (root : Var) (hU : UniqueIds root) :
    ((topological_sort root).map Var.uid).count root.uid =
      if root.hasHist = true then 2 else 1 := by
  rw [topological_sort_uid_count root root.uid]
  by_cases hh : root.hasHist = true
  · rw [if_pos hh]
    have h1 : root.uid ∈ (newA root []).map Var.uid :=
      List.mem_map.2 ⟨root, (root_mem_newA root hU).2 hh, rfl⟩
    have h2 := List.count_eq_one_of_mem (newA_uid_nodup root []) h1
    rw [h2]
    simp
  · rw [if_neg hh]
    have h1 : root.uid ∉ (newA root []).map Var.uid := by
      intro hmem
      rcases List.mem_map.1 hmem with ⟨w, hw, hwu⟩
      rcases newA_elem root [] w hw with ⟨hwh, hr, _⟩
      have : w = root := hU w (HR.mem_varList hr) root (mem_varList_self root) hwu
      subst this
      exact hh hwh
    rw [List.count_eq_zero.2 h1]
    simp

theorem topological_sort_count_other (root : Var) (hU : UniqueIds root) (u : Nat)
    (hne : u ≠ root.uid) :
    ((topological_sort root).map Var.uid).count u ≤ 1 := by
  rw [topological_sort_uid_count root u]
  rw [if_neg hne]
  have := newA_uid_count_le_one root [] u
  omega

/-- Characterization of membership in the returned order. -/
theorem topological_sort_mem (root : Var) (hU : UniqueIds root) (w : Var) :
    w ∈ topological_sort root ↔ w = root ∨ (HR root w ∧ w.hasHist = true) := by
  rw [topological_sort_shape]
  constructor
  · intro h
    rcases List.mem_append.1 h with h1 | h1
    · rcases newA_elem root [] w (List.mem_reverse.1 h1) with ⟨hwh, hr, _⟩
      exact Or.inr ⟨hr, hwh⟩
    · exact Or.inl (List.mem_singleton.1 h1)
  · intro h
    rcases h with h1 | ⟨hr, hwh⟩
    · subst h1; exact List.mem_append.2 (Or.inr (List.mem_singleton.2 rfl))
    · exact List.mem_append.2
        (Or.inl (List.mem_reverse.2 (reach_appended root hU w hr hwh)))


theorem N1_nohist {v : Var} (h : v.hasHist = false) : N1 v = fun _ => 0 := by
  cases v with
  | mk u c hh l ds ins =>
    simp only [Var.hasHist] at h
    subst h
    rw [N1]
    simp

theorem N1_leafhist {v : Var} (h : v.hasHist = true) (hl : v.lastFn = false) :
    N1 v = fun x => if x = v.uid then 1 else 0 := by
  cases v with
  | mk u c hh l ds ins =>
    simp only [Var.hasHist] at h
    simp only [Var.lastFn] at hl
    subst h; subst hl
    rw [N1]
    simp [Var.uid]

theorem N1_nonleaf {v : Var} (h : v.hasHist = true) (hl : v.lastFn = true) :
    N1 v = N1L v.inputs v.localDerivs := by
  cases v with
  | mk u c hh l ds ins =>
    simp only [Var.hasHist] at h
    simp only [Var.lastFn] at hl
    subst h; subst hl
    rw [N1]
    simp [Var.inputs, Var.localDerivs]


theorem N1L_zip (u : Nat) (d : ℚ) :
    ∀ (ins : List Var) (ds : List ℚ),
      d * N1L ins ds u = ((ins.zip ds).map (fun p => d * p.2 * N1 p.1 u)).sum
  | [], _ => by rw [N1L.eq_def]; simp
  | i :: is, [] => by rw [N1L.eq_def]; simp
  | i :: is, g :: gs => by
    have ih := N1L_zip u d is gs
    simp only [N1L, List.zip_cons_cons, List.map_cons, List.sum_cons]
    rw [mul_add, ih]
    ring

/-- The chain rule decomposes the node's total derivative. -/
theorem N1_chain {w : Var} (hh : w.hasHist = true) (hl : w.lastFn = true) (d : ℚ) (u : Nat) :
    d * N1 w u = pairSum (w.chain_rule d) u := by
  rw [N1_nonleaf hh hl]
  unfold pairSum Var.chain_rule
  rw [List.map_map, N1L_zip u d w.inputs w.localDerivs]
  rfl


theorem accOf_nil (u : Nat) : accOf [] u = 0 := rfl

theorem accOf_append (c1 c2 : List (Var × ℚ)) (u : Nat) :
    accOf (c1 ++ c2) u = accOf c1 u + accOf c2 u := by
  unfold accOf
  rw [List.filter_append, List.map_append, List.sum_append]

theorem accOf_single (w : Var) (d : ℚ) (u : Nat) :
    accOf [(w, d)] u = if w.uid = u then d else 0 := by
  unfold accOf
  by_cases h : w.uid = u <;> simp [h]

theorem phiSum_nil (m : Nat → Option ℚ) (u : Nat) : phiSum m [] u = 0 := rfl

theorem phiSum_cons (m : Nat → Option ℚ) (w : Var) (L : List Var) (u : Nat) :
    phiSum m (w :: L) u = (m w.uid).getD 0 * N1 w u + phiSum m L u := by
  unfold phiSum
  rw [List.map_cons, List.sum_cons]

theorem phiSum_congr {m1 m2 : Nat → Option ℚ} {L : List Var}
    (h : ∀ w ∈ L, m1 w.uid = m2 w.uid) (u : Nat) : phiSum m1 L u = phiSum m2 L u := by
  unfold phiSum
  congr 1
  apply List.map_congr_left
  intro w hw
  rw [h w hw]

theorem phiSum_zero {m : Nat → Option ℚ} {L : List Var}
    (h : ∀ w ∈ L, (m w.uid).getD 0 = 0) (u : Nat) : phiSum m L u = 0 := by
  unfold phiSum
  apply List.sum_eq_zero
  intro x hx
  rcases List.mem_map.1 hx with ⟨w, hw, hwx⟩
  rw [h w hw] at hwx
  simp [← hwx]

theorem updAdd_self (m : Nat → Option ℚ) (a : Nat) (g : ℚ) :
    ((updAdd m a g) a).getD 0 = (m a).getD 0 + g := by
  unfold updAdd
  cases h : m a <;> simp [h]

theorem updAdd_ne (m : Nat → Option ℚ) (a : Nat) (g : ℚ) {x : Nat} (h : x ≠ a) :
    (updAdd m a g) x = m x := by
  unfold updAdd
  simp [h]

/-- Updating a key not on the suffix leaves its pending mass unchanged. -/
theorem phiSum_updAdd_notmem {m : Nat → Option ℚ} {L : List Var} {a : Nat}
    (h : ∀ w ∈ L, w.uid ≠ a) (g : ℚ) (u : Nat) :
    phiSum (updAdd m a g) L u = phiSum m L u :=
  phiSum_congr (fun w hw => updAdd_ne m a g (h w hw)) u

/-- Adding `g` at the key of a suffix node adds `g` times its unit
derivative to the pending mass. -/
theorem phiSum_updAdd_mem {U : Var} (hU : UniqueIds U) {L : List Var}
    (hnd : (L.map Var.uid).Nodup) (hLU : ∀ w ∈ L, w ∈ varList U)
    {w0 : Var} (hw0 : w0 ∈ L) (m : Nat → Option ℚ) (g : ℚ) (u : Nat) :
    phiSum (updAdd m w0.uid g) L u = phiSum m L u + g * N1 w0 u := by
  induction L with
  | nil => cases hw0
  | cons w1 rest ih =>
    rw [List.map_cons, List.nodup_cons] at hnd
    rcases List.mem_cons.1 hw0 with h1 | h1
    · have hrest : ∀ w ∈ rest, w.uid ≠ w0.uid := by
        intro w hw heq
        exact hnd.1 (List.mem_map.2 ⟨w, hw, heq.trans (congrArg Var.uid h1)⟩)
      rw [phiSum_cons, phiSum_cons, ← h1, phiSum_updAdd_notmem hrest, updAdd_self]
      ring
    · have hne : w1.uid ≠ w0.uid := by
        intro heq
        have hw1U := hLU w1 (List.mem_cons_self _ _)
        have hw0U := hLU w0 (List.mem_cons.2 (Or.inr h1))
        have hw10 : w1 = w0 := hU w1 hw1U w0 hw0U heq
        exact hnd.1 (List.mem_map.2 ⟨w0, h1, (congrArg Var.uid hw10).symm⟩)
      rw [phiSum_cons, phiSum_cons, updAdd_ne m w0.uid g hne]
      rw [ih hnd.2 (fun w hw => hLU w (List.mem_cons.2 (Or.inr hw))) h1]
      ring

/-- Distributing a bag of chain-rule pairs into the map adds exactly the
pending mass of the pairs whose targets lie on the suffix; history-less
targets carry no mass and are dropped. -/
theorem phiSum_fold_pairs {U : Var} (hU : UniqueIds U) {L : List Var}
    (hnd : (L.map Var.uid).Nodup) (hLU : ∀ w ∈ L, w ∈ varList U) :
    ∀ (pairs : List (Var × ℚ)) (m : Nat → Option ℚ),
      (∀ p ∈ pairs, p.1 ∈ L ∨ ((∀ w ∈ L, w.uid ≠ p.1.uid) ∧ N1 p.1 = fun _ => 0)) →
      ∀ u, phiSum (pairs.foldl (fun m2 p => updAdd m2 p.1.uid p.2) m) L u =
        phiSum m L u + pairSum pairs u
  | [], m => by
    intro _ u
    unfold pairSum
    simp
  | p :: ps, m => by
    intro hp u
    have hmem := hp p (List.mem_cons_self _ _)
    have hrec := phiSum_fold_pairs hU hnd hLU ps (updAdd m p.1.uid p.2)
      (fun q hq => hp q (List.mem_cons.2 (Or.inr hq)))
    rw [List.foldl_cons, hrec]
    unfold pairSum
    rw [List.map_cons, List.sum_cons]
    rcases hmem with h1 | ⟨h1, h2⟩
    · rw [phiSum_updAdd_mem hU hnd hLU h1 m p.2 u]
      ring
    · rw [phiSum_updAdd_notmem h1 p.2 u, h2]
      ring

/-! ### The backpropagation fold -/

/-- The accumulate trace collects exactly the leaf nodes of the processed
list, in order. -/
theorem foldl_accCalls_fst : ∀ (L : List Var) (st : BP),
    ((L.foldl bpStep st).accCalls).map Prod.fst =
      (st.accCalls.map Prod.fst) ++ L.filter (fun w => w.is_leaf)
  | [], st => by simp
  | w :: L, st => by
    rw [List.foldl_cons, foldl_accCalls_fst L (bpStep st w)]
    unfold bpStep
    by_cases hl : w.is_leaf
    · simp [hl]
    · simp only [Bool.not_eq_true] at hl
      simp [hl]

/-- The chain-rule trace collects exactly the non-leaf nodes of the processed
list, in order. -/
theorem foldl_crCalls_fst : ∀ (L : List Var) (st : BP),
    ((L.foldl bpStep st).crCalls).map Prod.fst =
      (st.crCalls.map Prod.fst) ++ L.filter (fun w => !w.is_leaf)
  | [], st => by simp
  | w :: L, st => by
    rw [List.foldl_cons, foldl_crCalls_fst L (bpStep st w)]
    unfold bpStep
    by_cases hl : w.is_leaf
    · simp [hl]
    · simp only [Bool.not_eq_true] at hl
      simp [hl]

/-- Invariant of the loop: folding over a duplicate-free, topologically
ordered, history-bearing list moves exactly the pending gradient mass into
the accumulate trace. -/
theorem fold_acc {U : Var} (hU : UniqueIds U) :
    ∀ (L : List Var) (st : BP),
      (∀ w ∈ L, w.hasHist = true) →
      ((L.map Var.uid).Nodup) →
      (∀ P w Q, L = P ++ w :: Q → ∀ i ∈ w.inputs, i.hasHist = true →
        ∃ i2 ∈ Q, i2.uid = i.uid) →
      (∀ w ∈ L, w ∈ varList U) →
      ∀ u, accOf (L.foldl bpStep st).accCalls u = accOf st.accCalls u + phiSum st.derivs L u
  | [], st => by
    intro _ _ _ _ u
    rw [List.foldl_nil, phiSum_nil]
    ring
  | w :: L, st => by
    intro hL1 hL2 hL3 hL4 u
    rw [List.map_cons, List.nodup_cons] at hL2
    have hwin : ∀ w2 ∈ L, w2.uid ≠ w.uid := by
      intro w2 hw2 heq
      exact hL2.1 (List.mem_map.2 ⟨w2, hw2, heq⟩)
    have hL1' : ∀ w2 ∈ L, w2.hasHist = true :=
      fun w2 h => hL1 w2 (List.mem_cons.2 (Or.inr h))
    have hL3' : ∀ P w2 Q, L = P ++ w2 :: Q → ∀ i ∈ w2.inputs, i.hasHist = true →
        ∃ i2 ∈ Q, i2.uid = i.uid := by
      intro P w2 Q hPQ i hi hih
      exact hL3 (w :: P) w2 Q (by rw [hPQ]; rfl) i hi hih
    have hL4' : ∀ w2 ∈ L, w2 ∈ varList U :=
      fun w2 h => hL4 w2 (List.mem_cons.2 (Or.inr h))
    rw [List.foldl_cons, fold_acc hU L (bpStep st w) hL1' hL2.2 hL3' hL4' u, phiSum_cons]
    have hwh : w.hasHist = true := hL1 w (List.mem_cons_self _ _)
    unfold bpStep
    by_cases hl : w.is_leaf
    · -- leaf node with history: its map entry is routed to the trace
      have hlf : w.lastFn = false := by
        unfold Var.is_leaf at hl
        rw [hwh] at hl
        simpa using hl
      rw [if_pos hl]
      simp only []
      rw [accOf_append, accOf_single]
      have hphi : phiSum (fun x => if x = w.uid then some ((st.derivs w.uid).getD 0)
          else st.derivs x) L u = phiSum st.derivs L u := by
        apply phiSum_congr
        intro w2 hw2
        rw [if_neg (hwin w2 hw2)]
      rw [hphi, N1_leafhist hwh hlf]
      by_cases hx : w.uid = u
      · rw [if_pos hx]
        simp [hx]
        ring
      · rw [if_neg hx]
        have : (if u = w.uid then (1 : ℚ) else 0) = 0 := by
          rw [if_neg (fun h => hx h.symm)]
        simp [this]
    · -- non-leaf node: its map entry is distributed through the chain rule
      have hlf : w.lastFn = true := by
        unfold Var.is_leaf at hl
        rw [hwh] at hl
        simpa using hl
      rw [if_neg hl]
      simp only []
      have hphi : phiSum (fun x => if x = w.uid then some ((st.derivs w.uid).getD 0)
          else st.derivs x) L u = phiSum st.derivs L u := by
        apply phiSum_congr
        intro w2 hw2
        rw [if_neg (hwin w2 hw2)]
      have hpairs : ∀ p ∈ w.chain_rule ((st.derivs w.uid).getD 0),
          p.1 ∈ L ∨ ((∀ w2 ∈ L, w2.uid ≠ p.1.uid) ∧ N1 p.1 = fun _ => 0) := by
        intro p hp
        unfold Var.chain_rule at hp
        rcases List.mem_map.1 hp with ⟨q, hq, hqp⟩
        have hq1 : q.1 ∈ w.inputs := (List.of_mem_zip hq).1
        have hp1 : p.1 = q.1 := by rw [← hqp]
        by_cases hih : q.1.hasHist = true
        · left
          rcases hL3 [] w L rfl q.1 hq1 hih with ⟨i2, hi2, hi2u⟩
          have hiU : q.1 ∈ varList U :=
            varList_trans (mem_varList_input hq1) (hL4 w (List.mem_cons_self _ _))
          have : i2 = q.1 := hU i2 (hL4' i2 hi2) q.1 hiU hi2u
          rw [hp1, ← this]
          exact hi2
        · right
          simp only [Bool.not_eq_true] at hih
          constructor
          · intro w2 hw2 heq
            have hiU : q.1 ∈ varList U :=
              varList_trans (mem_varList_input hq1) (hL4 w (List.mem_cons_self _ _))
            have : w2 = q.1 := hU w2 (hL4' w2 hw2) q.1 hiU (by rw [heq, hp1])
            rw [this] at hw2
            have := hL1' q.1 hw2
            rw [hih] at this
            cases this
          · rw [hp1]
            exact N1_nohist hih
      rw [phiSum_fold_pairs hU hL2.2 hL4' _ _ hpairs u, hphi]
      rw [← N1_chain hwh hlf ((st.derivs w.uid).getD 0) u]
      ring

/-! ### Composition over `topological_sort` -/


theorem topological_sort_eq_mainSeq (root : Var) :
    topological_sort root = mainSeq root ++ [root] := topological_sort_shape root

theorem mainSeq_hasHist (root : Var) : ∀ w ∈ mainSeq root, w.hasHist = true := by
  intro w hw
  exact (newA_elem root [] w (List.mem_reverse.1 hw)).1

theorem mainSeq_HR (root : Var) : ∀ w ∈ mainSeq root, HR root w := by
  intro w hw
  exact (newA_elem root [] w (List.mem_reverse.1 hw)).2.1

theorem mainSeq_varmem (root : Var) : ∀ w ∈ mainSeq root, w ∈ varList root := by
  intro w hw
  exact HR.mem_varList (mainSeq_HR root w hw)

theorem mainSeq_nodup (root : Var) : ((mainSeq root).map Var.uid).Nodup := by
  unfold mainSeq
  rw [List.map_reverse, List.nodup_reverse]
  exact newA_uid_nodup root []

theorem mainSeq_mem_iff (root : Var) (w : Var) : w ∈ mainSeq root ↔ w ∈ newA root [] :=
  List.mem_reverse

/-- Topological ordering of the proper part: each history-bearing input of a
listed node occurs strictly later. -/
theorem mainSeq_order (root : Var) (hU : UniqueIds root) :
    ∀ P w Q, mainSeq root = P ++ w :: Q → ∀ i ∈ w.inputs, i.hasHist = true →
      ∃ i2 ∈ Q, i2.uid = i.uid := by
  intro P w Q hsplit i hi hih
  have hA : newA root [] = Q.reverse ++ w :: P.reverse := by
    have h1 : newA root [] = (mainSeq root).reverse := by
      unfold mainSeq
      rw [List.reverse_reverse]
    rw [h1, hsplit]
    rw [List.reverse_append, List.reverse_cons, List.append_assoc]
    simp
  rcases newA_order root [] root hU (mem_varList_self root) Q.reverse w P.reverse hA i hi hih
    with h1 | ⟨i2, hi2, hi2u⟩
  · cases h1
  · exact ⟨i2, List.mem_reverse.1 hi2, hi2u⟩

/-- The seeded map carries exactly the root's gradient mass. -/
theorem phiSum_seed {U : Var} (hU : UniqueIds U) (root : Var) (deriv : ℚ)
    (hrU : root ∈ varList U) :
    ∀ (L : List Var), ((L.map Var.uid).Nodup) → (∀ w ∈ L, w ∈ varList U) → root ∈ L →
      ∀ u, phiSum (fun x => if x = root.uid then some deriv else none) L u = deriv * N1 root u
  | [] => by intro _ _ hmem; cases hmem
  | w1 :: rest => by
    intro hnd hLU hmem u
    rw [List.map_cons, List.nodup_cons] at hnd
    rw [phiSum_cons]
    by_cases h : w1.uid = root.uid
    · have hw1 : w1 = root := hU w1 (hLU w1 (List.mem_cons_self _ _)) root hrU h
      rw [if_pos h]
      have hz : phiSum (fun x => if x = root.uid then some deriv else none) rest u = 0 := by
        apply phiSum_zero
        intro w hw
        have : w.uid ≠ root.uid := by
          intro heq
          exact hnd.1 (List.mem_map.2 ⟨w, hw, heq.trans h.symm⟩)
        rw [if_neg this]
        rfl
      rw [hz, hw1]
      simp
    · rw [if_neg h]
      have hrest : root ∈ rest := by
        rcases List.mem_cons.1 hmem with h1 | h1
        · exact absurd (congrArg Var.uid h1.symm) h
        · exact h1
      rw [phiSum_seed hU root deriv hrU rest hnd.2
        (fun w hw => hLU w (List.mem_cons.2 (Or.inr hw))) hrest u]
      simp

/-- A non-leaf node has a history (and a recorded operation). -/
theorem not_leaf_hasHist {v : Var} (h : v.is_leaf = false) :
    v.hasHist = true ∧ v.lastFn = true := by
  unfold Var.is_leaf at h
  constructor
  · cases hh : v.hasHist
    · rw [hh] at h; simp at h
    · rfl
  · cases hl : v.lastFn
    · rw [hl] at h; simp at h
    · rfl

/-- Total gradient routed to each id by `backpropagate` on a non-leaf root:
exactly the seeded total derivative. -/
theorem backprop_accOf (root : Var) (deriv : ℚ) (hU : UniqueIds root)
    (hnl : root.is_leaf = false) (u : Nat) :
    accOf (backpropagate root deriv).accCalls u = totalDeriv root deriv u := by
  unfold backpropagate
  rw [topological_sort_eq_mainSeq, List.foldl_append]
  have hstep : ∀ st : BP, (bpStep st root).accCalls = st.accCalls := by
    intro st
    unfold bpStep
    rw [if_neg (by rw [hnl]; simp)]
  rw [List.foldl_cons, List.foldl_nil, hstep]
  rw [fold_acc hU (mainSeq root) _ (mainSeq_hasHist root) (mainSeq_nodup root)
    (mainSeq_order root hU) (mainSeq_varmem root) u]
  have hroot : root ∈ mainSeq root := by
    rw [mainSeq_mem_iff]
    exact (root_mem_newA root hU).2 (not_leaf_hasHist hnl).1
  rw [phiSum_seed hU root deriv (mem_varList_self root) (mainSeq root) (mainSeq_nodup root)
    (mainSeq_varmem root) hroot u]
  unfold totalDeriv
  simp [accOf_nil]

theorem backprop_accCalls_fst (v : Var) (deriv : ℚ) :
    (backpropagate v deriv).accCalls.map Prod.fst =
      (topological_sort v).filter (fun w => w.is_leaf) := by
  unfold backpropagate
  rw [foldl_accCalls_fst]
  simp

theorem backprop_crCalls_fst (v : Var) (deriv : ℚ) :
    (backpropagate v deriv).crCalls.map Prod.fst =
      (topological_sort v).filter (fun w => !w.is_leaf) := by
  unfold backpropagate
  rw [foldl_crCalls_fst]
  simp

/-- Every accumulate call targets a leaf. -/
theorem backprop_accCalls_leaf (v : Var) (deriv : ℚ) :
    ∀ p ∈ (backpropagate v deriv).accCalls, p.1.is_leaf = true := by
  intro p hp
  have h1 : p.1 ∈ (backpropagate v deriv).accCalls.map Prod.fst :=
    List.mem_map.2 ⟨p, hp, rfl⟩
  rw [backprop_accCalls_fst] at h1
  exact List.of_mem_filter h1

/-- Every chain-rule call targets a non-leaf. -/
theorem backprop_crCalls_not_leaf (v : Var) (deriv : ℚ) :
    ∀ p ∈ (backpropagate v deriv).crCalls, p.1.is_leaf = false := by
  intro p hp
  have h1 : p.1 ∈ (backpropagate v deriv).crCalls.map Prod.fst :=
    List.mem_map.2 ⟨p, hp, rfl⟩
  rw [backprop_crCalls_fst] at h1
  have h2 := List.of_mem_filter h1
  simpa using h2

/-- On a non-leaf root, the accumulate trace visits exactly the leaves of the
proper traversal part. -/
theorem backprop_accCalls_fst_main (root : Var) (deriv : ℚ) (hnl : root.is_leaf = false) :
    (backpropagate root deriv).accCalls.map Prod.fst =
      (mainSeq root).filter (fun w => w.is_leaf) := by
  rw [backprop_accCalls_fst, topological_sort_eq_mainSeq, List.filter_append]
  simp [hnl]

/-- Uid multiplicity inside the proper traversal part is at most one. -/
theorem mainSeq_countP_le_one (root : Var) (u : Nat) :
    (mainSeq root).countP (fun x => x.uid == u) ≤ 1 := by
  have h1 : (mainSeq root).countP (fun x => x.uid == u) =
      List.count u ((mainSeq root).map Var.uid) := by
    rw [List.count, List.countP_map]
    rfl
  rw [h1]
  exact List.nodup_iff_count_le_one.1 (mainSeq_nodup root) u

/-- The filtered accumulate trace at a reachable history-bearing leaf is
exactly one call carrying the total derivative. -/
theorem backprop_acc_filter_eq (root : Var) (deriv : ℚ) (hU : UniqueIds root)
    (hnl : root.is_leaf = false) (w : Var) (hw : HR root w) (hwh : w.hasHist = true)
    (hwl : w.is_leaf = true) :
    (backpropagate root deriv).accCalls.filter (fun p => p.1.uid == w.uid)
      = [(w, totalDeriv root deriv w.uid)] := by
  have hwmain : w ∈ mainSeq root := by
    rw [mainSeq_mem_iff]
    exact reach_appended root hU w hw hwh
  -- the filtered trace has exactly one element
  have hcount : ((backpropagate root deriv).accCalls.filter
      (fun p => p.1.uid == w.uid)).length = 1 := by
    rw [← List.countP_eq_length_filter]
    have h1 : ((backpropagate root deriv).accCalls).countP (fun p => p.1.uid == w.uid) =
        ((backpropagate root deriv).accCalls.map Prod.fst).countP (fun x => x.uid == w.uid) := by
      rw [List.countP_map]
      rfl
    rw [h1, backprop_accCalls_fst_main root deriv hnl]
    have hle : ((mainSeq root).filter (fun x => x.is_leaf)).countP (fun x => x.uid == w.uid)
        ≤ (mainSeq root).countP (fun x => x.uid == w.uid) :=
      List.Sublist.countP_le _ (List.filter_sublist _)
    have hge : 0 < ((mainSeq root).filter (fun x => x.is_leaf)).countP
        (fun x => x.uid == w.uid) := by
      rw [List.countP_pos]
      exact ⟨w, List.mem_filter.2 ⟨hwmain, hwl⟩, by simp⟩
    have := mainSeq_countP_le_one root w.uid
    omega
  rcases List.length_eq_one.1 hcount with ⟨p, hp⟩
  have hpmem : p ∈ (backpropagate root deriv).accCalls.filter (fun q => q.1.uid == w.uid) := by
    rw [hp]; exact List.mem_singleton.2 rfl
  have hpin : p ∈ (backpropagate root deriv).accCalls := List.mem_of_mem_filter hpmem
  have hpuid : p.1.uid = w.uid := by
    have := List.of_mem_filter hpmem
    simpa using this
  -- the single caller is the copy `w` itself
  have hp1 : p.1 = w := by
    have h1 : p.1 ∈ (backpropagate root deriv).accCalls.map Prod.fst :=
      List.mem_map.2 ⟨p, hpin, rfl⟩
    rw [backprop_accCalls_fst_main root deriv hnl] at h1
    have h2 : p.1 ∈ mainSeq root := List.mem_of_mem_filter h1
    exact hU p.1 (mainSeq_varmem root p.1 h2) w (HR.mem_varList hw) hpuid
  -- its value is the total derivative
  have hval : p.2 = totalDeriv root deriv w.uid := by
    have h1 := backprop_accOf root deriv hU hnl w.uid
    unfold accOf at h1
    rw [hp] at h1
    simpa using h1
  have hpw : p = (w, totalDeriv root deriv w.uid) := by
    cases p with
    | mk a b =>
      simp only at hp1 hval
      rw [Prod.mk.injEq]
      exact ⟨hp1, hval⟩
  rw [hp, hpw]

/-- Ids with no reachable history-bearing leaf copy receive no accumulate
call. -/
theorem backprop_acc_filter_nil (root : Var) (deriv : ℚ) (hU : UniqueIds root)
    (hnl : root.is_leaf = false) (u : Nat)
    (hno : ∀ w, HR root w → w.uid = u → ¬(w.hasHist = true ∧ w.is_leaf = true)) :
    (backpropagate root deriv).accCalls.filter (fun p => p.1.uid == u) = [] := by
  rw [List.filter_eq_nil]
  intro p hp hpred
  have hpuid : p.1.uid = u := by simpa using hpred
  have h1 : p.1 ∈ (backpropagate root deriv).accCalls.map Prod.fst :=
    List.mem_map.2 ⟨p, hp, rfl⟩
  rw [backprop_accCalls_fst_main root deriv hnl] at h1
  have h2 : p.1 ∈ mainSeq root := List.mem_of_mem_filter h1
  have h3 : p.1.is_leaf = true := List.of_mem_filter h1
  exact hno p.1 (mainSeq_HR root p.1 h2) hpuid ⟨mainSeq_hasHist root p.1 h2, h3⟩

/-- Chain-rule call multiplicities: every reachable non-leaf is consumed
once, except the root, which is consumed twice (once as the trailing
duplicate). -/
theorem backprop_cr_countP (root : Var) (deriv : ℚ) (hU : UniqueIds root)
    (w : Var) (hw : HR root w) (hwnl : w.is_leaf = false) :
    ((backpropagate root deriv).crCalls).countP (fun p => p.1.uid == w.uid)
      = if w.uid = root.uid then 2 else 1 := by
  have h1 : ((backpropagate root deriv).crCalls).countP (fun p => p.1.uid == w.uid) =
      ((backpropagate root deriv).crCalls.map Prod.fst).countP (fun x => x.uid == w.uid) := by
    rw [List.countP_map]
    rfl
  rw [h1, backprop_crCalls_fst, topological_sort_eq_mainSeq, List.filter_append,
    List.countP_append]
  have hwmain : w ∈ mainSeq root := by
    rw [mainSeq_mem_iff]
    exact reach_appended root hU w hw (not_leaf_hasHist hwnl).1
  have hmain : ((mainSeq root).filter (fun x => !x.is_leaf)).countP
      (fun x => x.uid == w.uid) = 1 := by
    have hle : ((mainSeq root).filter (fun x => !x.is_leaf)).countP (fun x => x.uid == w.uid)
        ≤ (mainSeq root).countP (fun x => x.uid == w.uid) :=
      List.Sublist.countP_le _ (List.filter_sublist _)
    have hge : 0 < ((mainSeq root).filter (fun x => !x.is_leaf)).countP
        (fun x => x.uid == w.uid) := by
      rw [List.countP_pos]
      exact ⟨w, List.mem_filter.2 ⟨hwmain, by rw [hwnl]; rfl⟩, by simp⟩
    have := mainSeq_countP_le_one root w.uid
    omega
  rw [hmain]
  by_cases heq : w.uid = root.uid
  · have hwr : w = root := hU w (HR.mem_varList hw) root (mem_varList_self root) heq
    rw [if_pos heq]
    rw [← hwr]
    rw [List.filter_cons]
    rw [if_pos (by rw [hwnl]; rfl)]
    simp
  · rw [if_neg heq]
    have hzero : ([root].filter (fun x => !x.is_leaf)).countP (fun x => x.uid == w.uid) = 0 := by
      by_cases hr : root.is_leaf = true
      · have hfil : [root].filter (fun x => !x.is_leaf) = [] := by
          simp [List.filter_cons, hr]
        rw [hfil]
        rfl
      · simp only [Bool.not_eq_true] at hr
        have hfil : [root].filter (fun x => !x.is_leaf) = [root] := by
          simp [List.filter_cons, hr]
        rw [hfil, List.countP_cons]
        have hne : (root.uid == w.uid) = false := by
          simp only [beq_eq_false_iff_ne, ne_eq]
          intro hx
          exact heq hx.symm
        simp [hne]
    rw [hzero]

/-- Ordering over the full returned list: at any occurrence of `w`, each
history-bearing input either occurs later, or an earlier occurrence of `w`
excuses it (the trailing duplicate of the root). -/
theorem topological_sort_order_split (root : Var) (hU : UniqueIds root) :
    ∀ P w Q, topological_sort root = P ++ w :: Q → ∀ i ∈ w.inputs, w.hasHist = true →
      i.hasHist = true → (∃ i2 ∈ Q, i2.uid = i.uid) ∨ (∃ w2 ∈ P, w2.uid = w.uid) := by
  intro P w Q hsplit i hi hwh hih
  rw [topological_sort_eq_mainSeq] at hsplit
  rcases append_cons_split hsplit with ⟨Q1, hmain, hQ⟩ | ⟨P1, hP, hroot⟩
  · rcases mainSeq_order root hU P w Q1 hmain i hi hih with ⟨i2, hi2, hi2u⟩
    refine Or.inl ⟨i2, ?_, hi2u⟩
    rw [hQ]
    exact List.mem_append.2 (Or.inl hi2)
  · cases P1 with
    | cons a l =>
      exfalso
      simp only [List.cons_append, List.cons_eq_cons] at hroot
      rcases hroot with ⟨_, hroot2⟩
      cases l <;> simp at hroot2
    | nil =>
      simp only [List.nil_append, List.cons_eq_cons] at hroot
      have hwr : root = w := hroot.1
      have hrh : root.hasHist = true := by rw [hwr]; exact hwh
      refine Or.inr ⟨root, ?_, by rw [hwr]⟩
      rw [hP, List.append_nil, mainSeq_mem_iff]
      exact (root_mem_newA root hU).2 hrh

/-- Under the data-model invariant (constants carry no History), a constant
can enter the output only as the root itself. -/
theorem topological_sort_const (root : Var) (hU : UniqueIds root)
    (hconst : ∀ x ∈ varList root, x.is_constant = true → x.hasHist = false) :
    ∀ w ∈ topological_sort root, w.is_constant = true → w = root := by
  intro w hw hwc
  rcases (topological_sort_mem root hU w).1 hw with h | ⟨hr, hwh⟩
  · exact h
  · have := hconst w (HR.mem_varList hr) hwc
    rw [this] at hwh
    cases hwh

/-- Under the same invariant, no chain-rule call ever targets a constant. -/
theorem backprop_cr_not_const (root : Var) (deriv : ℚ) (hU : UniqueIds root)
    (hconst : ∀ x ∈ varList root, x.is_constant = true → x.hasHist = false) :
    ∀ p ∈ (backpropagate root deriv).crCalls, p.1.is_constant = false := by
  intro p hp
  have hnl := backprop_crCalls_not_leaf root deriv p hp
  have hh := (not_leaf_hasHist hnl).1
  have hmem : p.1 ∈ (backpropagate root deriv).crCalls.map Prod.fst :=
    List.mem_map.2 ⟨p, hp, rfl⟩
  rw [backprop_crCalls_fst] at hmem
  have hout : p.1 ∈ topological_sort root := List.mem_of_mem_filter hmem
  have hvar : p.1 ∈ varList root := by
    rcases (topological_sort_mem root hU p.1).1 hout with h | ⟨hr, _⟩
    · rw [h]; exact mem_varList_self root
    · exact HR.mem_varList hr
  cases hc : p.1.is_constant
  · rfl
  · have := hconst p.1 hvar hc
    rw [this] at hh
    cases hh


theorem chainRoot_varList : varList chainRoot = [chainRoot, chainLeaf] := by
  rw [chainRoot, chainLeaf]
  simp [varList, varListL]

theorem chainRoot_unique : UniqueIds chainRoot := by
  unfold UniqueIds
  rw [chainRoot_varList]
  intro a ha b hb
  simp only [List.mem_cons, List.not_mem_nil, or_false] at ha hb
  rcases ha with rfl | rfl <;> rcases hb with rfl | rfl <;>
    simp [chainRoot, chainLeaf, Var.uid]

theorem mixedRoot_varList : varList mixedRoot = [mixedRoot, chainLeaf, constLeaf] := by
  rw [mixedRoot, chainLeaf, constLeaf]
  simp [varList, varListL]

theorem mixedRoot_unique : UniqueIds mixedRoot := by
  unfold UniqueIds
  rw [mixedRoot_varList]
  intro a ha b hb
  simp only [List.mem_cons, List.not_mem_nil, or_false] at ha hb
  rcases ha with rfl | rfl | rfl <;> rcases hb with rfl | rfl | rfl <;>
    simp [mixedRoot, chainLeaf, constLeaf, Var.uid]

theorem mixedRoot_constfree : ∀ x ∈ varList mixedRoot,
    x.is_constant = true → x.hasHist = false := by
  intro x hx
  rw [mixedRoot_varList] at hx
  simp only [List.mem_cons, List.not_mem_nil, or_false] at hx
  rcases hx with rfl | rfl | rfl <;>
    simp [mixedRoot, chainLeaf, constLeaf, Var.is_constant, Var.isConst, Var.hasHist]

/-! ### The claims -/

/-- Claim C1 (amended).  `topological_sort(root)` on a non-constant root
returns the root first; its members are the root together with exactly the
reachable history-bearing Variables; a Variable reachable only as a bare
(history-less) leaf is omitted rather than included; every id other than the
root's occurs at most once, while the root itself is duplicated (it occurs
twice exactly when it has a History, once otherwise). -/
theorem topoSort_membership_and_counts (root : Var) (hU : UniqueIds root) :
    (topological_sort root).head? = some root
    ∧ (∀ w ∈ topological_sort root, w = root ∨ (HR root w ∧ w.hasHist = true))
    ∧ (∀ w, HR root w → w.hasHist = true → w ∈ topological_sort root)
    ∧ ((topological_sort root).map Var.uid).count root.uid
        = (if root.hasHist = true then 2 else 1)
    ∧ (∀ u, u ≠ root.uid → ((topological_sort root).map Var.uid).count u ≤ 1) := by
  refine ⟨topological_sort_head root, ?_, ?_, topological_sort_count_root root hU, ?_⟩
  · intro w hw
    exact (topological_sort_mem root hU w).1 hw
  · intro w hr hwh
    exact (topological_sort_mem root hU w).2 (Or.inr ⟨hr, hwh⟩)
  · intro u hu
    exact topological_sort_count_other root hU u hu

/-- Claim C1, the claim as frozen is false on the code: on the graph
`cexRoot(cexLeaf)` with a non-constant history-less leaf, the output is the
root twice and the reachable leaf is not included at all. -/
theorem topoSort_duplicate_root_cex :
    cexRoot.is_constant = false ∧ cexLeaf.is_constant = false
    ∧ cexLeaf.hasHist = false ∧ cexLeaf ∈ cexRoot.inputs
    ∧ ((topological_sort cexRoot).map Var.uid) = [0, 0]
    ∧ cexLeaf ∉ topological_sort cexRoot := by
  have hts : topological_sort cexRoot = [cexRoot, cexRoot] := by
    rw [topological_sort_shape]
    simp [cexRoot, cexLeaf, newA, newAList, newM, newMList, Var.uid]
  refine ⟨rfl, rfl, rfl, ?_, ?_, ?_⟩
  · simp [cexRoot, cexLeaf, Var.inputs]
  · rw [hts]
    simp [cexRoot, Var.uid]
  · rw [hts]
    intro hmem
    rcases List.mem_cons.1 hmem with h | h
    · simp [cexLeaf, cexRoot] at h
    · rcases List.mem_singleton.1 h with h
      simp [cexLeaf, cexRoot] at h

/-- Claim C1, instance of the amended statement on the concrete graph
`chainRoot(chainLeaf)`. -/
theorem topoSort_membership_and_counts_inst :
    UniqueIds chainRoot ∧
    ((topological_sort chainRoot).head? = some chainRoot
    ∧ (∀ w ∈ topological_sort chainRoot, w = chainRoot ∨ (HR chainRoot w ∧ w.hasHist = true))
    ∧ (∀ w, HR chainRoot w → w.hasHist = true → w ∈ topological_sort chainRoot)
    ∧ ((topological_sort chainRoot).map Var.uid).count chainRoot.uid
        = (if chainRoot.hasHist = true then 2 else 1)
    ∧ (∀ u, u ≠ chainRoot.uid → ((topological_sort chainRoot).map Var.uid).count u ≤ 1)) :=
  ⟨chainRoot_unique, topoSort_membership_and_counts chainRoot chainRoot_unique⟩

/-- Claim C2 (amended).  For a non-leaf root, `backpropagate` issues exactly
one `accumulate_derivative` call on every reachable leaf that carries a
History, passing the total derivative (the seed times the sum over all
chain-rule paths of the products of local derivatives); ids with no such
reachable leaf copy — in particular bare history-less leaves — receive no
call. -/
theorem backprop_leaf_accumulation (root : Var) (deriv : ℚ) (hU : UniqueIds root)
    (hnl : root.is_leaf = false) :
    (∀ w, HR root w → w.hasHist = true → w.is_leaf = true →
      (backpropagate root deriv).accCalls.filter (fun p => p.1.uid == w.uid)
        = [(w, totalDeriv root deriv w.uid)])
    ∧ (∀ u, (∀ w, HR root w → w.uid = u → ¬(w.hasHist = true ∧ w.is_leaf = true)) →
      (backpropagate root deriv).accCalls.filter (fun p => p.1.uid == u) = []) := by
  constructor
  · intro w hw hwh hwl
    exact backprop_acc_filter_eq root deriv hU hnl w hw hwh hwl
  · intro u hno
    exact backprop_acc_filter_nil root deriv hU hnl u hno

/-- Claim C2, the claim as frozen is false on the code: the reachable
non-constant bare leaf `cexLeaf` of `cexRoot(cexLeaf)` receives no
`accumulate_derivative` call at all (the claim demands exactly one). -/
theorem backprop_skips_bare_leaf_cex :
    (backpropagate cexRoot 1).accCalls = []
    ∧ cexLeaf.is_leaf = true ∧ cexLeaf.is_constant = false ∧ HR cexRoot cexLeaf := by
  refine ⟨?_, rfl, rfl, ?_⟩
  · unfold backpropagate
    rw [topological_sort_shape]
    simp only [cexRoot, cexLeaf, newA, newAList, newM, newMList, Var.uid]
    norm_num
    simp [bpStep, Var.is_leaf, Var.hasHist, Var.lastFn, Var.chain_rule, Var.inputs,
      Var.localDerivs, Var.uid, updAdd]
  · exact HR.step (by rfl) (by simp [cexRoot, Var.inputs]) (HR.refl _)

/-- Claim C2, instance of the amended statement at `chainRoot(chainLeaf)`. -/
theorem backprop_leaf_accumulation_inst :
    UniqueIds chainRoot ∧ chainRoot.is_leaf = false ∧
    ((∀ w, HR chainRoot w → w.hasHist = true → w.is_leaf = true →
      (backpropagate chainRoot 1).accCalls.filter (fun p => p.1.uid == w.uid)
        = [(w, totalDeriv chainRoot 1 w.uid)])
    ∧ (∀ u, (∀ w, HR chainRoot w → w.uid = u → ¬(w.hasHist = true ∧ w.is_leaf = true)) →
      (backpropagate chainRoot 1).accCalls.filter (fun p => p.1.uid == u) = [])) :=
  ⟨chainRoot_unique, rfl, backprop_leaf_accumulation chainRoot 1 chainRoot_unique rfl⟩

/-- Claim C3 (amended).  During one `backpropagate` call, the `chain_rule`
of every reachable non-leaf Variable is invoked exactly once — except the
root's, which is invoked twice (the root is seeded into the accumulation
list and appended again by the traversal). -/
theorem backprop_chain_rule_counts (root : Var) (deriv : ℚ) (hU : UniqueIds root) :
    ∀ w, HR root w → w.is_leaf = false →
      ((backpropagate root deriv).crCalls).countP (fun p => p.1.uid == w.uid)
        = if w.uid = root.uid then 2 else 1 := by
  intro w hw hwnl
  exact backprop_cr_countP root deriv hU w hw hwnl

/-- Claim C3, the claim as frozen is false on the code: on
`chainRoot(chainLeaf)` the non-leaf root's `chain_rule` is invoked twice in
a single `backpropagate` call, not exactly once. -/
theorem backprop_root_chain_rule_twice_cex :
    ((backpropagate chainRoot 1).crCalls.map (fun p => (p.1.uid, p.2))) = [(0, 1), (0, 1)]
    ∧ chainRoot.is_leaf = false := by
  refine ⟨?_, rfl⟩
  unfold backpropagate
  rw [topological_sort_shape]
  simp only [chainRoot, chainLeaf, newA, newAList, newM, newMList, Var.uid]
  norm_num
  simp [bpStep, Var.is_leaf, Var.hasHist, Var.lastFn, Var.chain_rule, Var.inputs,
    Var.localDerivs, Var.uid, updAdd]

/-- Claim C3, instance of the amended statement at `chainRoot(chainLeaf)`. -/
theorem backprop_chain_rule_counts_inst :
    UniqueIds chainRoot ∧ HR chainRoot chainRoot ∧ chainRoot.is_leaf = false ∧
    ((backpropagate chainRoot 1).crCalls).countP (fun p => p.1.uid == chainRoot.uid)
      = if chainRoot.uid = chainRoot.uid then 2 else 1 :=
  ⟨chainRoot_unique, HR.refl _, rfl,
    backprop_chain_rule_counts chainRoot 1 chainRoot_unique chainRoot (HR.refl _) rfl⟩

/-- Claim C4 (amended).  The root appears first; at any occurrence of a node
`w` in the returned order, every history-bearing input of `w` occurs
strictly later, unless an earlier occurrence of `w` exists (the trailing
duplicate of the root); inputs without a History never appear. -/
theorem topoSort_dependency_order (root : Var) (hU : UniqueIds root) :
    (topological_sort root).head? = some root
    ∧ (∀ P w Q, topological_sort root = P ++ w :: Q → ∀ i ∈ w.inputs,
        w.hasHist = true → i.hasHist = true →
        (∃ i2 ∈ Q, i2.uid = i.uid) ∨ (∃ w2 ∈ P, w2.uid = w.uid)) :=
  ⟨topological_sort_head root, fun P w Q hs i hi hwh hih =>
    topological_sort_order_split root hU P w Q hs i hi hwh hih⟩

/-- Claim C4, the claim as frozen is false on the code: the dependency edge
from `cexRoot` to its history-less input `cexLeaf` has no occurrence of the
input in the output at all, so the input does not appear after its
dependent. -/
theorem topoSort_missing_parent_cex :
    cexRoot.hasHist = true ∧ cexLeaf ∈ cexRoot.inputs
    ∧ cexLeaf ∉ topological_sort cexRoot
    ∧ (topological_sort cexRoot).map Var.uid = [0, 0] := by
  have hts : topological_sort cexRoot = [cexRoot, cexRoot] := by
    rw [topological_sort_shape]
    simp [cexRoot, cexLeaf, newA, newAList, newM, newMList, Var.uid]
  refine ⟨rfl, by simp [cexRoot, cexLeaf, Var.inputs], ?_, ?_⟩
  · rw [hts]
    intro hmem
    rcases List.mem_cons.1 hmem with h | h
    · simp [cexLeaf, cexRoot] at h
    · rcases List.mem_singleton.1 h with h
      simp [cexLeaf, cexRoot] at h
  · rw [hts]
    simp [cexRoot, Var.uid]

/-- Claim C4, instance of the amended statement at `chainRoot(chainLeaf)`. -/
theorem topoSort_dependency_order_inst :
    UniqueIds chainRoot ∧
    ((topological_sort chainRoot).head? = some chainRoot
    ∧ (∀ P w Q, topological_sort chainRoot = P ++ w :: Q → ∀ i ∈ w.inputs,
        w.hasHist = true → i.hasHist = true →
        (∃ i2 ∈ Q, i2.uid = i.uid) ∨ (∃ w2 ∈ P, w2.uid = w.uid))) :=
  ⟨chainRoot_unique, topoSort_dependency_order chainRoot chainRoot_unique⟩

/-- Claim C5 (amended).  Under the data-model invariant that a constant
Variable carries no History, a constant can appear in the output of
`topological_sort` only as the root itself (via the initial seeding of the
accumulation list), and no `chain_rule` call during `backpropagate` ever
targets a constant.  (Reachable constants are still marked in the visited
set, and a constant root does appear in the output.) -/
theorem constant_never_consumed (root : Var) (deriv : ℚ) (hU : UniqueIds root)
    (hconst : ∀ x ∈ varList root, x.is_constant = true → x.hasHist = false) :
    (∀ w ∈ topological_sort root, w.is_constant = true → w = root)
    ∧ (∀ p ∈ (backpropagate root deriv).crCalls, p.1.is_constant = false) :=
  ⟨topological_sort_const root hU hconst, backprop_cr_not_const root deriv hU hconst⟩

/-- Claim C5, the claim as frozen is false on the code: a constant root is
returned in the output of `topological_sort` even though it is constant and
structurally reachable (it is the root itself). -/
theorem constant_root_in_output_cex :
    constRoot.is_constant = true ∧ HR constRoot constRoot
    ∧ topological_sort constRoot = [constRoot]
    ∧ constRoot ∈ topological_sort constRoot := by
  have hts : topological_sort constRoot = [constRoot] := by
    rw [topological_sort_shape]
    simp [constRoot, newA, Var.uid]
  exact ⟨rfl, HR.refl _, hts, by rw [hts]; exact List.mem_singleton.2 rfl⟩

/-- Claim C5, instance of the amended statement at
`mixedRoot(chainLeaf, constLeaf)`. -/
theorem constant_never_consumed_inst :
    UniqueIds mixedRoot
    ∧ (∀ x ∈ varList mixedRoot, x.is_constant = true → x.hasHist = false)
    ∧ ((∀ w ∈ topological_sort mixedRoot, w.is_constant = true → w = mixedRoot)
      ∧ (∀ p ∈ (backpropagate mixedRoot 1).crCalls, p.1.is_constant = false)) :=
  ⟨mixedRoot_unique, mixedRoot_constfree,
    constant_never_consumed mixedRoot 1 mixedRoot_unique mixedRoot_constfree⟩

/-- Claim C6 (amended).  For the diamond `d = a(b(x), c(x))` whose shared
leaf `x` carries an empty History, `backpropagate(d, s)` accumulates on `x`
exactly once, with exactly the sum of the two path-local gradient products,
matching the multivariate chain rule. -/
theorem diamond_gradient_sum (g1 g2 gb gc s : ℚ) :
    (backpropagate (diaRoot g1 g2 gb gc) s).accCalls.map (fun p => (p.1.uid, p.2))
      = [(diaLeaf.uid, s * (g1 * gb) + s * (g2 * gc))] := by
  unfold backpropagate
  rw [topological_sort_shape]
  simp only [diaRoot, diaB, diaC, diaLeaf, newA, newAList, newM, newMList, Var.uid]
  norm_num
  simp [bpStep, Var.is_leaf, Var.hasHist, Var.lastFn, Var.chain_rule, Var.inputs,
    Var.localDerivs, Var.uid, updAdd]
  ring

/-- Claim C6, the claim as frozen is false on the code: when the shared leaf
of the diamond has no History, `backpropagate` accumulates nothing on it
(rather than the sum of the two path gradients). -/
theorem diamond_bare_leaf_cex :
    (backpropagate diaRootN 1).accCalls = []
    ∧ diaLeafN.is_leaf = true ∧ diaLeafN.is_constant = false
    ∧ HR diaRootN diaLeafN := by
  refine ⟨?_, rfl, rfl, ?_⟩
  · unfold backpropagate
    rw [topological_sort_shape]
    simp only [diaRootN, diaBN, diaCN, diaLeafN, newA, newAList, newM, newMList, Var.uid]
    norm_num
    simp [bpStep, Var.is_leaf, Var.hasHist, Var.lastFn, Var.chain_rule, Var.inputs,
      Var.localDerivs, Var.uid, updAdd]
  · exact @HR.step diaRootN diaBN diaLeafN (by rfl) (by simp [diaRootN, Var.inputs])
      (@HR.step diaBN diaLeafN diaLeafN (by rfl) (by simp [diaBN, Var.inputs]) (HR.refl _))

/-- Claim C7.  `central_difference(f, *vals, arg, epsilon)` evaluates `f`
exactly twice — once with `epsilon` added at position `arg` and once with
`epsilon` subtracted there, all other positions unchanged — and returns the
difference quotient `(f(plus) - f(minus)) / (2 * epsilon)`; the default
`epsilon` is `1e-6`. -/
theorem central_difference_spec (f : List ℚ → ℚ) (vals : List ℚ) (arg : Nat)
    (epsilon : ℚ) (h : arg < vals.length) :
    ∃ plus minus : List ℚ,
      central_difference f vals arg epsilon = ((f plus - f minus) / (2 * epsilon), [plus, minus])
      ∧ plus.length = vals.length ∧ minus.length = vals.length
      ∧ plus.getD arg 0 = vals.getD arg 0 + epsilon
      ∧ minus.getD arg 0 = vals.getD arg 0 - epsilon
      ∧ (∀ j, j ≠ arg → plus.getD j 0 = vals.getD j 0 ∧ minus.getD j 0 = vals.getD j 0)
      ∧ defaultEpsilon = 1 / 1000000 := by
  refine ⟨vals.set arg (vals.getD arg 0 + epsilon), vals.set arg (vals.getD arg 0 - epsilon),
    rfl, by simp, by simp, ?_, ?_, ?_, rfl⟩
  · rw [List.getD_eq_getElem?_getD, List.getElem?_set_self (by simpa using h)]
    simp
  · rw [List.getD_eq_getElem?_getD, List.getElem?_set_self (by simpa using h)]
    simp
  · intro j hj
    constructor <;>
      rw [List.getD_eq_getElem?_getD, List.getElem?_set_ne (fun hx => hj hx.symm),
        ← List.getD_eq_getElem?_getD]

/-- Claim C7, instance at `f(x) = x * x`, `vals = [3]`, `arg = 0`,
`epsilon = 1`. -/
theorem central_difference_spec_inst :
    0 < ([3] : List ℚ).length ∧
    (∃ plus minus : List ℚ,
      central_difference cdF [3] 0 1 = ((cdF plus - cdF minus) / (2 * 1), [plus, minus])
      ∧ plus.length = ([3] : List ℚ).length ∧ minus.length = ([3] : List ℚ).length
      ∧ plus.getD 0 0 = ([3] : List ℚ).getD 0 0 + 1
      ∧ minus.getD 0 0 = ([3] : List ℚ).getD 0 0 - 1
      ∧ (∀ j, j ≠ 0 → plus.getD j 0 = ([3] : List ℚ).getD j 0
          ∧ minus.getD j 0 = ([3] : List ℚ).getD j 0)
      ∧ defaultEpsilon = 1 / 1000000) :=
  ⟨by simp, central_difference_spec cdF [3] 0 1 (by simp)⟩

/-- Claim C8.  A `Context` created with `no_grad = true` returns the empty
saved sequence no matter how many times `save_for_backward` runs and with
which values: every such call is a no-op that discards its arguments. -/
theorem context_no_grad_empty :
    ∀ (vss : List (List ℚ)),
      ((vss.foldl Context.save_for_backward
        { no_grad := true, saved_values := [] }).saved_tensors) = [] := by
  have hfix : ∀ (vss : List (List ℚ)) (c : Context), c.no_grad = true →
      vss.foldl Context.save_for_backward c = c := by
    intro vss
    induction vss with
    | nil => intro c _; rfl
    | cons vs rest ih =>
      intro c hc
      rw [List.foldl_cons]
      have hstep : Context.save_for_backward c vs = c := by
        unfold Context.save_for_backward
        rw [if_pos hc]
      rw [hstep]
      exact ih c hc
  intro vss
  rw [hfix vss _ rfl]
  rfl

/-- Claim C9.  With `no_grad = false`, `saved_tensors` right after
`save_for_backward(*values)` is exactly that sequence; a second call
replaces rather than appends; and a fresh `Context` has an empty saved
sequence. -/
theorem context_save_overwrite (c : Context) (v1 v2 : List ℚ) (h : c.no_grad = false) :
    (c.save_for_backward v1).saved_tensors = v1
    ∧ ((c.save_for_backward v1).save_for_backward v2).saved_tensors = v2
    ∧ (({ no_grad := false, saved_values := [] } : Context)).saved_tensors = [] := by
  have h1 : c.save_for_backward v1 = { c with saved_values := v1 } := by
    unfold Context.save_for_backward
    rw [if_neg (by rw [h]; simp)]
  have h2 : ({ c with saved_values := v1 } : Context).save_for_backward v2
      = { c with saved_values := v2 } := by
    unfold Context.save_for_backward
    rw [if_neg (by simp [h])]
  rw [h1, h2]
  exact ⟨rfl, rfl, rfl⟩

/-- Claim C9, instance at a fresh tracking `Context` with `[1]` then
`[2, 3]`. -/
theorem context_save_overwrite_inst :
    ({ no_grad := false, saved_values := [] } : Context).no_grad = false ∧
    ((({ no_grad := false, saved_values := [] } : Context).save_for_backward [1]).saved_tensors
        = [1]
    ∧ ((({ no_grad := false, saved_values := [] } : Context).save_for_backward
        [1]).save_for_backward [2, 3]).saved_tensors = [2, 3]
    ∧ (({ no_grad := false, saved_values := [] } : Context)).saved_tensors = []) :=
  ⟨rfl, context_save_overwrite { no_grad := false, saved_values := [] } [1] [2, 3] rfl⟩

/-- Claim C10.  The only graph mutations `backpropagate` performs are
`accumulate_derivative` calls, and every one of them targets a Variable
whose `is_leaf()` is true; `chain_rule` (a query) is only ever invoked on
non-leaves, and `topological_sort` — embedded here as a pure function over
the graph — performs no mutation at all. -/
theorem backprop_frame_effects (v : Var) (deriv : ℚ) :
    (∀ p ∈ (backpropagate v deriv).accCalls, p.1.is_leaf = true)
    ∧ (∀ p ∈ (backpropagate v deriv).crCalls, p.1.is_leaf = false) :=
  ⟨backprop_accCalls_leaf v deriv, backprop_crCalls_not_leaf v deriv⟩

end Autodiff
